import Mathlib

/-!
Verification of the LPA* pathfinding engine of this repository.

Sources embedded here:
* `src/main/algorithms/LPAStar.py` — `get_checked_neighbors`, `reconstruct_path`,
  `update_vertex`, `calc_key`, `lpa_star`.
* `src/main/testing/RP.py` — `determinant_2x2`, `covariance_matrix`, `mahalanobis`,
  `minkowski`, `manhattan`, `d_manhattan`, `check`.

Modelling conventions:
* Python numbers in the cost maps are non-negative integers or `float("inf")`;
  they are embedded as `WithTop Nat`.
* Dictionaries keyed by node identity are embedded as functions `V → _` over an
  abstract node type `V` with decidable equality.
* The `Node` class of the repository is not under `src/`; its observable
  interface (`get_pos`, `neighbors`, `is_checked`, `is_unchecked`, `is_start`,
  `is_end`, `been_checked`, `check`, `uncheck`, `make_path`) is modelled from
  the spec: a node carries a mutually exclusive state tag from
  {Unchecked, Checked, Start, End, Path, Barrier}, a fixed position, a fixed
  neighbor list (barrier cells never appear in neighbor lists), and a
  `been_checked` flag.  The engine never writes `been_checked` of the end node
  (it never calls `check()` on the end node), so the flag is carried as a fixed
  attribute of the grid.
* `heapq` is embedded as a list of `(key, node)` pairs: `heappush` appends,
  `heappop` removes the leftmost entry with minimal key (the heap root is a
  minimal element under the lexicographic tuple order Python uses).
* The GUI cancellation poll `check(pygame.event.get(), run)` is embedded in two
  ways: `lpa_loop` abstracts it to an injected cancellation signal, as the spec
  prescribes ("maps to an injected cancellation signal — abstracted from the
  source's GUI-event poll"); `lpa_loop_py` keeps the Python call-arity facts of
  the source, where `check` is defined with exactly one parameter but called
  with two arguments.
-/

namespace LPA

/-- Costs: non-negative integers extended with `float("inf")`. -/
abbrev Cost := WithTop Nat

/-- Priority-queue keys: pairs of costs, compared lexicographically. -/
abbrev Key := Cost × Cost

/-- Lexicographic strict order on keys, exactly Python's tuple `<`. -/
def keyLt (a b : Key) : Prop :=
  a.1 < b.1 ∨ (a.1 = b.1 ∧ a.2 < b.2)

instance (a b : Key) : Decidable (keyLt a b) :=
  inferInstanceAs (Decidable (a.1 < b.1 ∨ (a.1 = b.1 ∧ a.2 < b.2)))

theorem keyLt_irrefl (a : Key) : ¬ keyLt a a := by
  rintro (h | ⟨-, h⟩) <;> exact lt_irrefl _ h

theorem not_keyLt {a b : Key} :
    ¬ keyLt a b ↔ (b.1 < a.1 ∨ (b.1 = a.1 ∧ b.2 ≤ a.2)) := by
  unfold keyLt
  push_neg
  constructor
  · rintro ⟨h1, h2⟩
    rcases lt_or_eq_of_le h1 with h | h
    · exact Or.inl h
    · exact Or.inr ⟨h, h2 h.symm⟩
  · rintro (h | ⟨h1, h2⟩)
    · exact ⟨le_of_lt h, fun he => absurd (he ▸ h) (lt_irrefl _)⟩
    · exact ⟨le_of_eq h1, fun _ => h2⟩

theorem keyLt_asymm {a b : Key} (h : keyLt a b) : ¬ keyLt b a := by
  rcases h with h | ⟨h1, h2⟩
  · rintro (h' | ⟨h1', -⟩)
    · exact absurd (lt_trans h h') (lt_irrefl _)
    · exact absurd (h1' ▸ h) (lt_irrefl _)
  · rintro (h' | ⟨-, h2'⟩)
    · exact absurd (h1 ▸ h') (lt_irrefl _)
    · exact absurd (lt_trans h2 h2') (lt_irrefl _)

theorem not_keyLt_trans {a b c : Key} (h1 : ¬ keyLt b a) (h2 : ¬ keyLt c b) :
    ¬ keyLt c a := by
  rw [not_keyLt] at h1 h2 ⊢
  rcases h1 with h1 | ⟨e1, l1⟩ <;> rcases h2 with h2 | ⟨e2, l2⟩
  · exact Or.inl (lt_trans h1 h2)
  · exact Or.inl (e2 ▸ h1)
  · exact Or.inl (e1 ▸ h2)
  · exact Or.inr ⟨e1.trans e2, le_trans l1 l2⟩

/-- Node state tags, modelled from the spec's data model. -/
inductive NodeState
  | unchecked
  | checked
  | startTag
  | endTag
  | path
  | barrier
  deriving DecidableEq, Repr

/-- A grid, as consumed by the engine: distinguished start and end nodes,
adjacency, positions, and the fixed `been_checked` flags (see the modelling
notes in the file header).  `stop` stands for the Python attribute `grid.end`.
The mutable per-node state tags live in `EngineState`, initialised from
`initTag`. -/
structure Grid (V : Type) where
  start : V
  stop : V
  neighbors : V → List V
  pos : V → ℤ × ℤ
  beenChecked : V → Bool
  initTag : V → NodeState

variable {V : Type} [DecidableEq V]

/-- Manhattan distance between two positions, from `RP.manhattan`. -/
def manhattan (p q : ℤ × ℤ) : ℕ :=
  (p.1 - q.1).natAbs + (p.2 - q.2).natAbs

/-- The neighbor filter of `update_vertex` (LPAStar.py lines 68-73):
checked, start, unchecked, or end-with-history. -/
def qualifies (st : V → NodeState) (bc : V → Bool) (m : V) : Bool :=
  decide (st m = NodeState.checked) || decide (st m = NodeState.startTag)
    || decide (st m = NodeState.unchecked)
    || (decide (st m = NodeState.endTag) && bc m)

/-- The `rhs` recomputation loop of `update_vertex` (LPAStar.py lines 66-74):
start from infinity and fold `min` of `g[neighbor] + 1` over qualifying
neighbors. -/
def rhs_from_neighbors (G : Grid V) (node : V) (g : V → Cost)
    (st : V → NodeState) : Cost :=
  (G.neighbors node).foldl
    (fun acc m => if qualifies st G.beenChecked m then min acc (g m + 1) else acc) ⊤

/-- `calc_key` from LPAStar.py: `(min(g, rhs) + h_manhattan(node, end), min(g, rhs))`. -/
def calc_key (G : Grid V) (node : V) (g rhs : V → Cost) : Key :=
  (min (g node) (rhs node) + (manhattan (G.pos node) (G.pos G.stop) : ℕ),
   min (g node) (rhs node))

/-- An open list: a list of `(key, node)` pairs (the heap contents). -/
abbrev OpenList (V : Type) := List (Key × V)

/-- `update_vertex` from LPAStar.py: for a non-start node, recompute `rhs[node]`,
drop every open-list entry of this node, and push `(calc_key(node), node)` iff
`g[node] != rhs[node]`.  Returns the updated `rhs` map and open list. -/
def update_vertex (G : Grid V) (node : V) (rhs g : V → Cost)
    (st : V → NodeState) (ol : OpenList V) : (V → Cost) × OpenList V :=
  if node = G.start then (rhs, ol)
  else
    let r := rhs_from_neighbors G node g st
    let rhs' := Function.update rhs node r
    let filtered := ol.filter (fun e => decide (e.2 ≠ node))
    if g node ≠ r then
      (rhs', filtered ++ [(calc_key G node g rhs', node)])
    else
      (rhs', filtered)

/-- `get_checked_neighbors` from LPAStar.py: neighbors that are checked or start. -/
def get_checked_neighbors (G : Grid V) (st : V → NodeState) (node : V) : List V :=
  (G.neighbors node).filter
    (fun m => st m = NodeState.checked ∨ st m = NodeState.startTag)

/-- Python's `min(list, key=costs)`: the first element attaining the minimal
cost; `none` for the empty list (where Python raises `ValueError`). -/
def minByCost (costs : V → Cost) : List V → Option V
  | [] => none
  | x :: xs =>
    match minByCost costs xs with
    | none => some x
    | some m => if costs m < costs x then some m else some x

/-- Possible outcomes of `reconstruct_path`: normal return, the `ValueError`
raised by `min()` on an empty sequence, or exhaustion of the recursion fuel
(the Python loop has no termination guarantee). -/
inductive RPOutcome (V : Type)
  | ok (st : V → NodeState)
  | valueError (st : V → NodeState)
  | outOfFuel

instance [DecidableEq (V → NodeState)] : DecidableEq (RPOutcome V) :=
  fun a b =>
    match a, b with
    | .ok s, .ok t =>
      if h : s = t then isTrue (by rw [h]) else isFalse (by simp [h])
    | .ok _, .valueError _ => isFalse (by simp)
    | .ok _, .outOfFuel => isFalse (by simp)
    | .valueError _, .ok _ => isFalse (by simp)
    | .valueError s, .valueError t =>
      if h : s = t then isTrue (by rw [h]) else isFalse (by simp [h])
    | .valueError _, .outOfFuel => isFalse (by simp)
    | .outOfFuel, .ok _ => isFalse (by simp)
    | .outOfFuel, .valueError _ => isFalse (by simp)
    | .outOfFuel, .outOfFuel => isTrue rfl

/-- `reconstruct_path` from LPAStar.py: walk from `current` through the
minimum-cost checked/start neighbor, marking path nodes, until the start node
is reached.  `min` of an empty candidate list raises `ValueError`. -/
def reconstruct_path (G : Grid V) :
    ℕ → V → (V → Cost) → (V → NodeState) → RPOutcome V
  | 0, _, _, _ => .outOfFuel
  | fuel + 1, current, costs, st =>
    if st current = NodeState.startTag then .ok st
    else
      match minByCost costs (get_checked_neighbors G st current) with
      | none => .valueError st
      | some c =>
        if st c = NodeState.startTag then .ok st
        else reconstruct_path G fuel c costs (Function.update st c .path)

/-- `heappop` on the list model: remove and return the leftmost entry with
minimal key (the heap root is minimal under the tuple order). -/
def popMin : OpenList V → Option ((Key × V) × OpenList V)
  | [] => none
  | e :: es =>
    match popMin es with
    | none => some (e, [])
    | some (m, rest) =>
      if keyLt m.1 e.1 then some (m, e :: rest) else some (e, es)

/-- The mutable engine state of `lpa_star`: the `g` and `rhs` dictionaries, the
per-node state tags, the open list, the last popped key `topKey`, and the `run`
flag. -/
structure EngineState (V : Type) where
  g : V → Cost
  rhs : V → Cost
  tag : V → NodeState
  openList : OpenList V
  topKey : Key
  run : Bool

/-- The `neighbor.uncheck()` guarded by
`not is_start and not is_end and not is_checked` (LPAStar.py lines 144-149). -/
def uncheck_if_needed (st : V → NodeState) (m : V) : V → NodeState :=
  if st m = NodeState.startTag ∨ st m = NodeState.endTag
      ∨ st m = NodeState.checked
  then st
  else Function.update st m NodeState.unchecked

/-- One pass of the neighbor loop body (LPAStar.py lines 143-150): conditionally
uncheck the neighbor, then run `update_vertex` on it. -/
def nbr_step (G : Grid V) (s : EngineState V) (m : V) : EngineState V :=
  let st' := uncheck_if_needed s.tag m
  let p := update_vertex G m s.rhs s.g st' s.openList
  { s with tag := st', rhs := p.1, openList := p.2 }

/-- The whole neighbor loop: fold `nbr_step` over the popped node's neighbors. -/
def process_neighbors (G : Grid V) (s : EngineState V) (l : List V) : EngineState V :=
  l.foldl (nbr_step G) s

/-- The `node.check()` guarded by `not is_start and not is_end`
(LPAStar.py lines 155-157). -/
def check_if_needed (st : V → NodeState) (nd : V) : V → NodeState :=
  if st nd = NodeState.startTag ∨ st nd = NodeState.endTag
  then st
  else Function.update st nd NodeState.checked

/-- Result of one main-loop body: next state, or the `break` on an empty open
list, or an error propagated out of `reconstruct_path`, or fuel exhaustion
inside `reconstruct_path`. -/
inductive StepResult (V : Type)
  | ok (s : EngineState V)
  | emptyOpen (s : EngineState V)
  | pathFail (s : EngineState V)
  | pathFuel

/-- The branch on `g[node] > rhs[node]` after the pop (LPAStar.py lines
136-140): settle an overconsistent node, or reset an underconsistent one to
infinity and re-run `update_vertex` on it. -/
def settle (G : Grid V) (nd : V) (s : EngineState V) : EngineState V :=
  if s.rhs nd < s.g nd then
    { s with g := Function.update s.g nd (s.rhs nd) }
  else
    let g' := Function.update s.g nd ⊤
    let p := update_vertex G nd s.rhs g' s.tag s.openList
    { s with g := g', rhs := p.1, openList := p.2 }

/-- Everything the loop body does after a successful pop of `(e.1, e.2)`
leaving `rest` queued, up to but excluding path reconstruction: record `run`,
`topKey` and the shortened open list, settle the popped node, process its
neighbors, and check it. -/
def afterPop (G : Grid V) (cancelVal : Bool) (s : EngineState V)
    (e : Key × V) (rest : OpenList V) : EngineState V :=
  let s2 := settle G e.2 { s with run := cancelVal, openList := rest, topKey := e.1 }
  let s3 := process_neighbors G s2 (G.neighbors e.2)
  { s3 with tag := check_if_needed s3.tag e.2 }

/-- One iteration of the main loop body of `lpa_star` (LPAStar.py lines
127-161), with the cancellation poll's return value injected as `cancelVal`:
set `run`, pop the minimal entry, settle or reset the popped node, process its
neighbors, redraw (a no-op here), check the node, and reconstruct the path when
the popped node is the end node. -/
def lpa_step (G : Grid V) (cancelVal : Bool) (rpFuel : ℕ)
    (s : EngineState V) : StepResult V :=
  match popMin s.openList with
  | none => .emptyOpen { s with run := cancelVal }
  | some (e, rest) =>
    let s4 := afterPop G cancelVal s e rest
    if e.2 = G.stop then
      match reconstruct_path G rpFuel e.2 s4.rhs s4.tag with
      | .ok st' => .ok { s4 with tag := st' }
      | .valueError st' => .pathFail { s4 with tag := st' }
      | .outOfFuel => .pathFuel
    else .ok s4

/-- The while-condition `topKey < calc_key(end) or rhs[end] != g[end]`
(LPAStar.py lines 124-126), without the `and run` conjunct. -/
def loopCond (G : Grid V) (s : EngineState V) : Prop :=
  keyLt s.topKey (calc_key G G.stop s.g s.rhs) ∨ s.rhs G.stop ≠ s.g G.stop

instance (G : Grid V) (s : EngineState V) : Decidable (loopCond G s) :=
  inferInstanceAs (Decidable (_ ∨ _))

/-- How a run of `lpa_star` ends: `converged` when the while-condition proper
becomes false, `cancelled` when only the `run` flag is false, `aborted` on the
empty-open-list `break`, `raised` when a Python exception propagates, and
`outOfFuel` when the modelling fuel runs out. -/
inductive RunOutcome (V : Type)
  | converged (s : EngineState V)
  | cancelled (s : EngineState V)
  | aborted (s : EngineState V)
  | raised (s : EngineState V)
  | outOfFuel

/-- The main loop of `lpa_star` with the cancellation poll abstracted to an
injected signal `cancel` (spec §4.4 step 1), indexed by the iteration
counter `i`. -/
def lpa_loop (G : Grid V) (cancel : ℕ → Bool) :
    ℕ → ℕ → EngineState V → RunOutcome V
  | 0, _, _ => .outOfFuel
  | fuel + 1, i, s =>
    if loopCond G s then
      if s.run then
        match lpa_step G (cancel i) fuel s with
        | .ok s' => lpa_loop G cancel fuel (i + 1) s'
        | .emptyOpen s' => .aborted s'
        | .pathFail s' => .raised s'
        | .pathFuel => .outOfFuel
      else .cancelled s
    else .converged s

/-- The initialisation of `lpa_star` (LPAStar.py lines 113-122): all costs
infinite, `rhs[start] = 0`, the open list holding `(calc_key(start), start)`,
and `topKey` that same key. -/
def startState (G : Grid V) : EngineState V :=
  let g0 : V → Cost := fun _ => ⊤
  let rhs0 : V → Cost := Function.update (fun _ => (⊤ : Cost)) G.start 0
  let tk := calc_key G G.start g0 rhs0
  { g := g0, rhs := rhs0, tag := G.initTag,
    openList := [(tk, G.start)], topKey := tk, run := true }

/-- `lpa_star` with the spec's injected cancellation signal. -/
def lpa_star (G : Grid V) (cancel : ℕ → Bool) (fuel : ℕ) : RunOutcome V :=
  lpa_loop G cancel fuel 0 (startState G)

/-! ### The call-arity facts of the cancellation poll, as in the source

`RP.check` (RP.py lines 210-221) is defined with exactly one parameter, while
`lpa_star` (LPAStar.py line 128) calls it as `check(pygame.event.get(), run)`
with two positional arguments.  Calling a Python function whose parameter count
does not match the argument count raises `TypeError` before the body runs. -/

/-- Python errors the embedded code can raise. -/
inductive PyErr
  | typeError
  | zeroDivisionError
  | valueError
  deriving DecidableEq, Repr

/-- Number of parameters of `def check(current)` in RP.py. -/
def check_paramCount : ℕ := 1

/-- Number of arguments at the call `check(pygame.event.get(), run)` in
LPAStar.py line 128. -/
def check_callArgCount : ℕ := 2

/-- The call `check(pygame.event.get(), run)` as Python evaluates it: arity is
checked before the callee's body runs. -/
def lpa_check_call : Except PyErr Bool :=
  if check_callArgCount = check_paramCount then .ok true
  else .error .typeError

/-- Outcomes of the source-faithful loop: as `RunOutcome`, plus a Python
exception with its kind. -/
inductive RunOutcomePy (V : Type)
  | converged (s : EngineState V)
  | cancelled (s : EngineState V)
  | aborted (s : EngineState V)
  | raised (e : PyErr) (s : EngineState V)
  | outOfFuel

/-- The main loop of `lpa_star` with the cancellation poll embedded faithfully:
`run = check(pygame.event.get(), run)` is an arity-checked Python call whose
result, had it returned, would become the new `run` flag. -/
def lpa_loop_py (G : Grid V) : ℕ → EngineState V → RunOutcomePy V
  | 0, _ => .outOfFuel
  | fuel + 1, s =>
    if loopCond G s then
      if s.run then
        match lpa_check_call with
        | .error e => .raised e s
        | .ok rv =>
          match lpa_step G rv fuel s with
          | .ok s' => lpa_loop_py G fuel s'
          | .emptyOpen s' => .aborted s'
          | .pathFail s' => .raised .valueError s'
          | .pathFuel => .outOfFuel
      else .cancelled s
    else .converged s

/-- `lpa_star` embedded faithfully to the source, including the arity of the
cancellation poll. -/
def lpa_star_py (G : Grid V) (fuel : ℕ) : RunOutcomePy V :=
  lpa_loop_py G fuel (startState G)

/-! ### The heuristics of RP.py needed by the claims -/

/-- `determinant_2x2` from RP.py, on a 2x2 matrix given as nested pairs. -/
def determinant_2x2 (m : (ℤ × ℤ) × (ℤ × ℤ)) : ℤ :=
  m.1.1 * m.2.2 - m.1.2 * m.2.1

/-- `covariance_matrix` from RP.py. -/
def covariance_matrix (p1 p2 : ℤ × ℤ) : (ℤ × ℤ) × (ℤ × ℤ) :=
  let cxx := (p1.1 - p2.1) ^ 2
  let cyy := (p1.2 - p2.2) ^ 2
  let cxy := (p1.1 - p2.1) * (p1.2 - p2.2)
  ((cxx, cxy), (cxy, cyy))

/-- `mahalanobis` from RP.py.  The near-singular guard compares the integer
determinant with the float literal `1e-10`; the guarded branch returns
`float("inf")`, embedded as `⊤ : WithTop ℝ`.  The unguarded branch sums
`d*d / matrix[i][i]` over the coordinate differences and takes `math.sqrt`. -/
noncomputable def mahalanobis (p1 p2 : ℤ × ℤ) : WithTop ℝ :=
  let matrix := covariance_matrix p1 p2
  if (determinant_2x2 matrix : ℚ) < 1 / 10000000000 then ⊤
  else
    let dx := p1.1 - p2.1
    let dy := p1.2 - p2.2
    ((Real.sqrt ((dx : ℝ) * dx / (matrix.1.1 : ℝ) +
        (dy : ℝ) * dy / (matrix.2.2 : ℝ)) : ℝ) : WithTop ℝ)

/-- Python's true division `1 / p` on an integer `p`: raises
`ZeroDivisionError` when `p = 0`. -/
noncomputable def py_inv (p : ℤ) : Except PyErr ℝ :=
  if p = 0 then .error .zeroDivisionError else .ok (1 / (p : ℝ))

/-- `minkowski` from RP.py with an integer exponent `p`: compute
`d1 = abs(dx)**p` and `d2 = abs(dy)**p`, then `(d1 + d2)**(1/p)`; the inner
`1/p` raises `ZeroDivisionError` when `p = 0` (for `p = 0` the bases are
computed first and `x**0 = 1` succeeds, matching Python). -/
noncomputable def minkowski (p1 p2 : ℤ × ℤ) (p : ℤ) : Except PyErr ℝ := do
  let d1 : ℝ := (|p1.1 - p2.1| : ℝ) ^ (p : ℤ)
  let d2 : ℝ := (|p1.2 - p2.2| : ℝ) ^ (p : ℤ)
  let q ← py_inv p
  return (d1 + d2) ^ q

/-- `d_manhattan` from RP.py: Manhattan distance plus a penalty that starts at
`len(node1.neighbors)` and is decremented once for each neighbor that is
neither checked nor unchecked. -/
def d_manhattan (G : Grid V) (st : V → NodeState) (n1 n2 : V) : ℕ :=
  let blocked_penalty :=
    (G.neighbors n1).foldl
      (fun acc m =>
        if st m ≠ NodeState.checked ∧ st m ≠ NodeState.unchecked then acc - 1
        else acc)
      (G.neighbors n1).length
  manhattan (G.pos n1) (G.pos n2) + blocked_penalty

/-! ### Properties of the min-fold inside `update_vertex` -/

/-- The accumulator fold of `update_vertex`, abstracted over the qualifying
predicate `Q` and the cost map `g`. -/
def costFold (Q : V → Bool) (g : V → Cost) (l : List V) (acc : Cost) : Cost :=
  l.foldl (fun a m => if Q m then min a (g m + 1) else a) acc

theorem rhs_from_eq (G : Grid V) (node : V) (g : V → Cost) (st : V → NodeState) :
    rhs_from_neighbors G node g st
      = costFold (qualifies st G.beenChecked) g (G.neighbors node) ⊤ := rfl

theorem costFold_nil (Q : V → Bool) (g : V → Cost) (acc : Cost) :
    costFold Q g [] acc = acc := rfl

theorem costFold_cons (Q : V → Bool) (g : V → Cost) (hd : V) (ls : List V)
    (acc : Cost) :
    costFold Q g (hd :: ls) acc
      = costFold Q g ls (if Q hd then min acc (g hd + 1) else acc) := by
  show List.foldl _ _ _ = _
  rw [List.foldl_cons]
  rfl

theorem costFold_le_acc (Q : V → Bool) (g : V → Cost) :
    ∀ (l : List V) (acc : Cost), costFold Q g l acc ≤ acc := by
  intro l
  induction l with
  | nil => intro acc; exact le_refl _
  | cons m ls ih =>
    intro acc
    rw [costFold_cons]
    refine le_trans (ih _) ?_
    split
    · exact min_le_left _ _
    · exact le_refl _

theorem costFold_mono_acc (Q : V → Bool) (g : V → Cost) :
    ∀ (l : List V) {a b : Cost}, a ≤ b → costFold Q g l a ≤ costFold Q g l b := by
  intro l
  induction l with
  | nil => intro a b h; exact h
  | cons m ls ih =>
    intro a b h
    rw [costFold_cons, costFold_cons]
    refine ih ?_
    split
    · exact min_le_min h (le_refl _)
    · exact h

theorem costFold_min_acc (Q : V → Bool) (g : V → Cost) :
    ∀ (l : List V) (a b : Cost), costFold Q g l (min a b) = min (costFold Q g l a) b := by
  intro l
  induction l with
  | nil => intro a b; rfl
  | cons m ls ih =>
    intro a b
    rw [costFold_cons, costFold_cons]
    split
    · rw [min_right_comm a b (g m + 1), ih]
    · exact ih a b

theorem costFold_le_of_mem (Q : V → Bool) (g : V → Cost) {l : List V} {m : V}
    (hm : m ∈ l) (hq : Q m = true) :
    ∀ acc, costFold Q g l acc ≤ g m + 1 := by
  induction l with
  | nil => cases hm
  | cons hd ls ih =>
    intro acc
    rw [costFold_cons]
    rcases List.mem_cons.1 hm with rfl | hm'
    · rw [if_pos hq]
      exact le_trans (costFold_le_acc Q g ls _) (min_le_right _ _)
    · exact ih hm' _

theorem costFold_cases (Q : V → Bool) (g : V → Cost) :
    ∀ (l : List V) (acc : Cost),
      costFold Q g l acc = acc
        ∨ ∃ m ∈ l, Q m = true ∧ costFold Q g l acc = g m + 1 := by
  intro l
  induction l with
  | nil => intro acc; exact Or.inl rfl
  | cons hd ls ih =>
    intro acc
    rw [costFold_cons]
    by_cases hq : Q hd = true
    · rw [if_pos hq]
      rcases ih (min acc (g hd + 1)) with h | ⟨m, hm, hqm, hv⟩
      · rcases le_total acc (g hd + 1) with hle | hle
        · exact Or.inl (by rw [h, min_eq_left hle])
        · exact Or.inr ⟨hd, List.mem_cons_self _ _, hq, by rw [h, min_eq_right hle]⟩
      · exact Or.inr ⟨m, List.mem_cons_of_mem _ hm, hqm, hv⟩
    · rw [if_neg hq]
      rcases ih acc with h | ⟨m, hm, hqm, hv⟩
      · exact Or.inl h
      · exact Or.inr ⟨m, List.mem_cons_of_mem _ hm, hqm, hv⟩

theorem costFold_congr {Q₁ Q₂ : V → Bool} {g₁ g₂ : V → Cost} :
    ∀ (l : List V), (∀ m ∈ l, Q₁ m = Q₂ m) → (∀ m ∈ l, Q₁ m = true → g₁ m = g₂ m) →
      ∀ acc, costFold Q₁ g₁ l acc = costFold Q₂ g₂ l acc := by
  intro l
  induction l with
  | nil => intro _ _ _; rfl
  | cons hd ls ih =>
    intro hQ hg acc
    rw [costFold_cons, costFold_cons]
    have hstep : (if Q₁ hd then min acc (g₁ hd + 1) else acc)
        = (if Q₂ hd then min acc (g₂ hd + 1) else acc) := by
      by_cases h : Q₁ hd = true
      · rw [if_pos h, if_pos ((hQ hd (List.mem_cons_self _ _)) ▸ h),
          hg hd (List.mem_cons_self _ _) h]
      · rw [if_neg h, if_neg ((hQ hd (List.mem_cons_self _ _)) ▸ h)]
    rw [hstep]
    exact ih (fun m hm => hQ m (List.mem_cons_of_mem _ hm))
      (fun m hm h => hg m (List.mem_cons_of_mem _ hm) h) _

theorem costFold_mono_g (Q : V → Bool) {g₁ g₂ : V → Cost}
    (hg : ∀ m, g₁ m ≤ g₂ m) :
    ∀ (l : List V) {a b : Cost}, a ≤ b → costFold Q g₁ l a ≤ costFold Q g₂ l b := by
  intro l
  induction l with
  | nil => intro a b h; exact h
  | cons hd ls ih =>
    intro a b h
    rw [costFold_cons, costFold_cons]
    refine ih ?_
    split
    · exact min_le_min h (add_le_add (hg hd) (le_refl _))
    · exact h

theorem costFold_update_ge (Q : V → Bool) {g : V → Cost} {x : V} {v : Cost}
    (hx : g x = ⊤) :
    ∀ (l : List V) (acc : Cost),
      min (costFold Q g l acc) (v + 1)
        ≤ costFold Q (Function.update g x v) l acc := by
  intro l
  induction l with
  | nil => intro acc; exact min_le_left _ _
  | cons hd ls ih =>
    intro acc
    have hstep : min (if Q hd then min acc (g hd + 1) else acc) (v + 1)
        ≤ (if Q hd then min acc (Function.update g x v hd + 1) else acc) := by
      by_cases hhd : hd = x
      · subst hhd
        by_cases hq : Q hd = true
        · rw [if_pos hq, if_pos hq, Function.update_same, hx, top_add,
            min_eq_left (le_top : acc ≤ ⊤)]
        · rw [if_neg hq, if_neg hq]
          exact min_le_left _ _
      · rw [Function.update_noteq hhd]
        exact min_le_left _ _
    calc min (costFold Q g (hd :: ls) acc) (v + 1)
        = min (min (costFold Q g ls (if Q hd then min acc (g hd + 1) else acc)) (v + 1))
            (v + 1) := by rw [costFold_cons, min_assoc, min_self]
      _ = min (costFold Q g ls
            (min (if Q hd then min acc (g hd + 1) else acc) (v + 1))) (v + 1) := by
          rw [costFold_min_acc]
      _ ≤ costFold Q (Function.update g x v) ls
            (min (if Q hd then min acc (g hd + 1) else acc) (v + 1)) := ih _
      _ ≤ costFold Q (Function.update g x v) (hd :: ls) acc := by
          rw [costFold_cons]
          exact costFold_mono_acc _ _ _ hstep

/-! ### Basic facts about `update_vertex` -/

theorem update_vertex_start {G : Grid V} {node : V} (h : node = G.start)
    (rhs g : V → Cost) (st : V → NodeState) (ol : OpenList V) :
    update_vertex G node rhs g st ol = (rhs, ol) := by
  rw [update_vertex, if_pos h]

theorem update_vertex_fst {G : Grid V} {node : V} (h : node ≠ G.start)
    (rhs g : V → Cost) (st : V → NodeState) (ol : OpenList V) :
    (update_vertex G node rhs g st ol).1
      = Function.update rhs node (rhs_from_neighbors G node g st) := by
  rw [update_vertex, if_neg h]
  dsimp only
  split <;> rfl

theorem update_vertex_snd {G : Grid V} {node : V} (h : node ≠ G.start)
    (rhs g : V → Cost) (st : V → NodeState) (ol : OpenList V) :
    (update_vertex G node rhs g st ol).2
      = (ol.filter fun e => decide (e.2 ≠ node))
          ++ (if g node ≠ rhs_from_neighbors G node g st then
                [(calc_key G node g
                    (Function.update rhs node (rhs_from_neighbors G node g st)), node)]
              else []) := by
  rw [update_vertex, if_neg h]
  dsimp only
  split
  · rfl
  · rw [List.append_nil]

theorem calc_key_congr {G : Grid V} {node : V} {g₁ g₂ rhs₁ rhs₂ : V → Cost}
    (hg : g₁ node = g₂ node) (hr : rhs₁ node = rhs₂ node) :
    calc_key G node g₁ rhs₁ = calc_key G node g₂ rhs₂ := by
  rw [calc_key, calc_key, hg, hr]

/-- C7: `update_vertex` is idempotent — running it a second time on the `rhs`
map and open list produced by the first run, with `g` and the node states
unchanged, returns exactly the same `rhs` map and open list. -/
theorem update_vertex_idempotent (G : Grid V) (node : V) (rhs g : V → Cost)
    (st : V → NodeState) (ol : OpenList V) :
    update_vertex G node (update_vertex G node rhs g st ol).1 g st
        (update_vertex G node rhs g st ol).2
      = update_vertex G node rhs g st ol := by
  by_cases hs : node = G.start
  · rw [update_vertex_start hs, update_vertex_start hs]
  · have hfst := update_vertex_fst hs rhs g st ol
    have hsnd := update_vertex_snd hs rhs g st ol
    have hfilt : ((ol.filter fun e => decide (e.2 ≠ node))
          ++ (if g node ≠ rhs_from_neighbors G node g st then
                [(calc_key G node g
                    (Function.update rhs node (rhs_from_neighbors G node g st)),
                  node)]
              else [])).filter (fun e => decide (e.2 ≠ node))
        = ol.filter fun e => decide (e.2 ≠ node) := by
      rw [List.filter_append]
      have h1 : ((ol.filter fun e => decide (e.2 ≠ node)).filter
            fun e => decide (e.2 ≠ node))
          = ol.filter fun e => decide (e.2 ≠ node) :=
        List.filter_eq_self.mpr (fun e he => (List.mem_filter.1 he).2)
      have h2 : ((if g node ≠ rhs_from_neighbors G node g st then
            [(calc_key G node g
                (Function.update rhs node (rhs_from_neighbors G node g st)),
              node)]
            else []) : OpenList V).filter (fun e => decide (e.2 ≠ node)) = [] := by
        split <;> simp
      rw [h1, h2, List.append_nil]
    refine Prod.ext ?_ ?_
    · rw [update_vertex_fst hs, hfst, Function.update_idem]
    · rw [update_vertex_snd hs, hsnd, hfst, hfilt, Function.update_idem]

/-! ### C4: the `d_manhattan` penalty counts the wrong set of neighbors -/

theorem countP_add_countP_not (p : V → Bool) :
    ∀ l : List V, l.countP p + l.countP (fun m => !(p m)) = l.length := by
  intro l
  induction l with
  | nil => rfl
  | cons hd ls ih =>
    rw [List.countP_cons, List.countP_cons]
    cases h : p hd <;> simp [h] <;> omega

theorem countP_ext {p q : V → Bool} :
    ∀ l : List V, (∀ m ∈ l, p m = q m) → l.countP p = l.countP q := by
  intro l
  induction l with
  | nil => intro _; rfl
  | cons hd ls ih =>
    intro h
    rw [List.countP_cons, List.countP_cons, h hd (List.mem_cons_self _ _),
      ih (fun m hm => h m (List.mem_cons_of_mem _ hm))]

theorem foldl_sub_countP (P : V → Prop) [DecidablePred P] :
    ∀ (l : List V) (n : ℕ), l.countP (fun m => decide (P m)) ≤ n →
      l.foldl (fun acc m => if P m then acc - 1 else acc) n
        = n - l.countP (fun m => decide (P m)) := by
  intro l
  induction l with
  | nil => intro n _; rfl
  | cons hd ls ih =>
    intro n hn
    rw [List.foldl_cons]
    by_cases h : P hd
    · have hcount : (hd :: ls).countP (fun m => decide (P m))
          = ls.countP (fun m => decide (P m)) + 1 := by
        simp [List.countP_cons, h]
      rw [hcount] at hn
      rw [if_pos h, ih (n - 1) (by omega), hcount]
      omega
    · have hcount : (hd :: ls).countP (fun m => decide (P m))
          = ls.countP (fun m => decide (P m)) := by
        simp [List.countP_cons, h]
      rw [hcount] at hn
      rw [if_neg h, ih n hn, hcount]

/-- A two-node grid used as a concrete input: node `false` (the start, at
`(0, 0)`) has the single neighbor `true` (the end, at `(2, 3)`), which is
checked. -/
def exGrid : Grid Bool where
  start := false
  stop := true
  neighbors := fun _ => [true]
  pos := fun v => if v then (2, 3) else (0, 0)
  beenChecked := fun _ => false
  initTag := fun v => if v then .checked else .startTag

/-- C4, counterexample: at a node with one checked neighbor, `d_manhattan` is
Manhattan distance plus 1, not Manhattan distance plus the number of neighbors
that are neither checked nor unchecked (which is 0 here). -/
theorem d_manhattan_claim_counterexample :
    ¬ (d_manhattan exGrid exGrid.initTag false true
        = manhattan (exGrid.pos false) (exGrid.pos true)
          + (exGrid.neighbors false).countP
              (fun m => decide (exGrid.initTag m ≠ NodeState.checked
                ∧ exGrid.initTag m ≠ NodeState.unchecked))) := by
  decide

/-- C4, amended: `d_manhattan` returns the Manhattan distance plus a penalty
equal to the number of neighbors of `node1` that are checked or unchecked. -/
theorem d_manhattan_eq_manhattan_add_traversable (G : Grid V)
    (st : V → NodeState) (n1 n2 : V) :
    d_manhattan G st n1 n2
      = manhattan (G.pos n1) (G.pos n2)
        + (G.neighbors n1).countP
            (fun m => decide (st m = NodeState.checked
              ∨ st m = NodeState.unchecked)) := by
  have hle : (G.neighbors n1).countP
      (fun m => decide (st m ≠ NodeState.checked ∧ st m ≠ NodeState.unchecked))
      ≤ (G.neighbors n1).length := List.countP_le_length _
  have hfold := foldl_sub_countP
    (fun m => st m ≠ NodeState.checked ∧ st m ≠ NodeState.unchecked)
    (G.neighbors n1) (G.neighbors n1).length hle
  have hcompl := countP_add_countP_not
    (fun m => decide (st m = NodeState.checked ∨ st m = NodeState.unchecked))
    (G.neighbors n1)
  have hpoint : (G.neighbors n1).countP
      (fun m => decide (st m ≠ NodeState.checked ∧ st m ≠ NodeState.unchecked))
      = (G.neighbors n1).countP
          (fun m => !(decide (st m = NodeState.checked
            ∨ st m = NodeState.unchecked))) := by
    refine countP_ext _ (fun m _ => ?_)
    cases h : st m <;> simp [h]
  rw [d_manhattan]
  rw [hfold, hpoint]
  omega

/-! ### C9: `minkowski` with `p = 0` raises `ZeroDivisionError` -/

/-- C9: for every pair of positions, calling `minkowski` with `p = 0` raises
(`ZeroDivisionError`, from evaluating `1/p`) instead of returning any numeric
value. -/
theorem minkowski_zero_raises (p1 p2 : ℤ × ℤ) :
    minkowski p1 p2 0 = Except.error PyErr.zeroDivisionError := by
  simp [minkowski, py_inv, Bind.bind, Except.bind]

/-! ### C10: `mahalanobis` always returns infinity on integer positions -/

/-- C10: for every pair of integer positions, the covariance matrix built from
the coordinate deltas has determinant 0, the near-singular guard fires, and
`mahalanobis` returns infinity; the square-root branch is unreachable. -/
theorem mahalanobis_eq_top (p1 p2 : ℤ × ℤ) : mahalanobis p1 p2 = ⊤ := by
  have hdet : determinant_2x2 (covariance_matrix p1 p2) = 0 := by
    simp only [determinant_2x2, covariance_matrix]
    ring
  have hlt : ((determinant_2x2 (covariance_matrix p1 p2) : ℤ) : ℚ)
      < 1 / 10000000000 := by
    rw [hdet]
    norm_num
  rw [mahalanobis]
  rw [if_pos hlt]

/-! ### C5: what one `update_vertex` call does -/

/-- The spec's description of one `update_vertex` call on a non-start node:
`rhs[node]` becomes the minimum of `g[m] + 1` over qualifying neighbors `m`
(infinity when unattained), other `rhs` entries are untouched, and the
resulting open list holds exactly the old entries of other nodes plus — iff
`g[node] != rhs[node]` afterwards — the fresh entry `(calc_key(node), node)`. -/
def VertexUpdateSpec (G : Grid V) (node : V) (rhs g : V → Cost)
    (st : V → NodeState) (ol : OpenList V) : Prop :=
  ((update_vertex G node rhs g st ol).1 node = ⊤
      ∨ ∃ m ∈ G.neighbors node, qualifies st G.beenChecked m = true
          ∧ (update_vertex G node rhs g st ol).1 node = g m + 1)
  ∧ (∀ m ∈ G.neighbors node, qualifies st G.beenChecked m = true →
      (update_vertex G node rhs g st ol).1 node ≤ g m + 1)
  ∧ (∀ x, x ≠ node → (update_vertex G node rhs g st ol).1 x = rhs x)
  ∧ (∀ e : Key × V,
      e ∈ (update_vertex G node rhs g st ol).2
        ↔ ((e ∈ ol ∧ e.2 ≠ node)
            ∨ (g node ≠ (update_vertex G node rhs g st ol).1 node
                ∧ e = (calc_key G node g (update_vertex G node rhs g st ol).1,
                      node))))

/-- C5: a call of `update_vertex` on a non-start node meets `VertexUpdateSpec`,
and a call on the start node changes nothing. -/
theorem update_vertex_meets_spec (G : Grid V) (node : V) (h : node ≠ G.start)
    (rhs g : V → Cost) (st : V → NodeState) (ol : OpenList V) :
    VertexUpdateSpec G node rhs g st ol
      ∧ update_vertex G G.start rhs g st ol = (rhs, ol) := by
  have hnode : (update_vertex G node rhs g st ol).1 node
      = rhs_from_neighbors G node g st := by
    rw [update_vertex_fst h, Function.update_same]
  refine ⟨?_, update_vertex_start rfl rhs g st ol⟩
  rw [VertexUpdateSpec]
  constructor
  · rw [hnode, rhs_from_eq]
    rcases costFold_cases (qualifies st G.beenChecked) g (G.neighbors node) ⊤ with
      hc | ⟨m, hm, hq, hv⟩
    · exact Or.inl hc
    · exact Or.inr ⟨m, hm, hq, hv⟩
  refine ⟨?_, ?_, ?_⟩
  · intro m hm hq
    rw [hnode, rhs_from_eq]
    exact costFold_le_of_mem _ _ hm hq _
  · intro x hx
    rw [update_vertex_fst h, Function.update_noteq hx]
  · intro e
    rw [update_vertex_snd h, List.mem_append, List.mem_filter, decide_eq_true_eq,
      update_vertex_fst h, Function.update_same]
    by_cases hc : g node ≠ rhs_from_neighbors G node g st
    · rw [if_pos hc, List.mem_singleton]
      constructor
      · rintro (he | he)
        · exact Or.inl he
        · exact Or.inr ⟨hc, he⟩
      · rintro (he | ⟨-, he⟩)
        · exact Or.inl he
        · exact Or.inr he
    · rw [if_neg hc]
      constructor
      · intro he
        exact Or.inl (by simpa using he)
      · rintro (he | ⟨hgr, -⟩)
        · simpa using he
        · exact absurd hgr hc

/-- C5, witness at a concrete non-start node. -/
theorem update_vertex_meets_spec_witness :
    (true : Bool) ≠ exGrid.start
      ∧ (VertexUpdateSpec exGrid true (fun _ => ⊤) (fun _ => ⊤) exGrid.initTag []
          ∧ update_vertex exGrid exGrid.start (fun _ => ⊤) (fun _ => ⊤)
              exGrid.initTag [] = (fun _ => ⊤, [])) :=
  ⟨by decide,
    update_vertex_meets_spec exGrid true (by decide) (fun _ => ⊤) (fun _ => ⊤)
      exGrid.initTag []⟩

/-! ### C3: `reconstruct_path` at a dead end -/

/-- A grid whose end node `true` is fully walled off: its neighbor list is
empty (barrier cells never appear in neighbor lists). -/
def wallGrid : Grid Bool where
  start := false
  stop := true
  neighbors := fun _ => []
  pos := fun v => if v then (1, 1) else (0, 0)
  beenChecked := fun _ => false
  initTag := fun v => if v then .endTag else .startTag

/-- C3, counterexample: on the fully walled-off end node, `reconstruct_path`
raises `ValueError` (Python's `min()` of an empty sequence) instead of
returning normally; no node is marked as path (the state is unchanged). -/
theorem reconstruct_path_claim_counterexample :
    reconstruct_path wallGrid 5 wallGrid.stop (fun _ => ⊤) wallGrid.initTag
      = RPOutcome.valueError wallGrid.initTag := by
  decide

/-- C3, amended: whenever the current node is not the start node and has no
checked or start neighbor, `reconstruct_path` raises `ValueError` with the
state tags as they were at that step (so no further node is marked as path). -/
theorem reconstruct_path_dead_end (G : Grid V) (fuel : ℕ) (current : V)
    (costs : V → Cost) (st : V → NodeState)
    (h1 : st current ≠ NodeState.startTag)
    (h2 : get_checked_neighbors G st current = []) :
    reconstruct_path G (fuel + 1) current costs st = RPOutcome.valueError st := by
  rw [reconstruct_path, if_neg h1, h2]
  rfl

/-- C3, witness for the amended statement, at the walled-off end node. -/
theorem reconstruct_path_dead_end_witness :
    (wallGrid.initTag wallGrid.stop ≠ NodeState.startTag
        ∧ get_checked_neighbors wallGrid wallGrid.initTag wallGrid.stop = [])
      ∧ reconstruct_path wallGrid (7 + 1) wallGrid.stop (fun _ => ⊤)
          wallGrid.initTag = RPOutcome.valueError wallGrid.initTag :=
  ⟨⟨by decide, by decide⟩,
    reconstruct_path_dead_end wallGrid 7 wallGrid.stop (fun _ => ⊤)
      wallGrid.initTag (by decide) (by decide)⟩

/-! ### Membership in the open list after `update_vertex` -/

/-- A node has an entry in the open list. -/
def inOpen (ol : OpenList V) (v : V) : Prop := v ∈ ol.map Prod.snd

theorem update_vertex_mem {G : Grid V} {node : V} (h : node ≠ G.start)
    (rhs g : V → Cost) (st : V → NodeState) (ol : OpenList V) (e : Key × V) :
    e ∈ (update_vertex G node rhs g st ol).2
      ↔ ((e ∈ ol ∧ e.2 ≠ node)
          ∨ (g node ≠ rhs_from_neighbors G node g st
              ∧ e = (calc_key G node g
                  (Function.update rhs node (rhs_from_neighbors G node g st)),
                  node))) := by
  rw [update_vertex_snd h, List.mem_append, List.mem_filter, decide_eq_true_eq]
  by_cases hc : g node ≠ rhs_from_neighbors G node g st
  · rw [if_pos hc, List.mem_singleton]
    constructor
    · rintro (he | he)
      · exact Or.inl he
      · exact Or.inr ⟨hc, he⟩
    · rintro (he | ⟨-, he⟩)
      · exact Or.inl he
      · exact Or.inr he
  · rw [if_neg hc]
    constructor
    · rintro (he | he)
      · exact Or.inl he
      · exact absurd he (List.not_mem_nil e)
    · rintro (he | ⟨hgr, -⟩)
      · exact Or.inl he
      · exact absurd hgr hc

theorem update_vertex_inOpen {G : Grid V} {node : V} (h : node ≠ G.start)
    (rhs g : V → Cost) (st : V → NodeState) (ol : OpenList V) (v : V) :
    inOpen (update_vertex G node rhs g st ol).2 v
      ↔ ((inOpen ol v ∧ v ≠ node)
          ∨ (g node ≠ rhs_from_neighbors G node g st ∧ v = node)) := by
  rw [inOpen, List.mem_map]
  constructor
  · rintro ⟨e, he, rfl⟩
    rcases (update_vertex_mem h rhs g st ol e).1 he with ⟨h1, h2⟩ | ⟨h1, rfl⟩
    · exact Or.inl ⟨List.mem_map.2 ⟨e, h1, rfl⟩, h2⟩
    · exact Or.inr ⟨h1, rfl⟩
  · rintro (⟨hv, hne⟩ | ⟨hgr, hveq⟩)
    · obtain ⟨e, he, rfl⟩ := List.mem_map.1 hv
      exact ⟨e, (update_vertex_mem h rhs g st ol e).2 (Or.inl ⟨he, hne⟩), rfl⟩
    · exact ⟨(calc_key G node g
          (Function.update rhs node (rhs_from_neighbors G node g st)), node),
        (update_vertex_mem h rhs g st ol _).2 (Or.inr ⟨hgr, rfl⟩), hveq.symm⟩

theorem update_vertex_rhs_other {G : Grid V} {node x : V} (hx : x ≠ node)
    (rhs g : V → Cost) (st : V → NodeState) (ol : OpenList V) :
    (update_vertex G node rhs g st ol).1 x = rhs x := by
  by_cases h : node = G.start
  · rw [update_vertex_start h]
  · rw [update_vertex_fst h, Function.update_noteq hx]

/-! ### The one-entry-per-node and membership-iff-inconsistent invariants -/

/-- A node is queued iff it is locally inconsistent (spec §3). -/
def Winv (s : EngineState V) : Prop :=
  ∀ v, inOpen s.openList v ↔ s.g v ≠ s.rhs v

/-- The open list holds at most one entry per node. -/
def Uinv (s : EngineState V) : Prop :=
  (s.openList.map Prod.snd).Nodup

/-- `rhs[start]` is pinned at 0. -/
def Rinv (G : Grid V) (s : EngineState V) : Prop :=
  s.rhs G.start = 0

/-- `g[start]` is either still infinite or already settled at 0. -/
def Ginv (G : Grid V) (s : EngineState V) : Prop :=
  s.g G.start = 0 ∨ s.g G.start = ⊤

theorem update_vertex_W_ne {G : Grid V} {node : V} (h : node ≠ G.start)
    {rhs g : V → Cost} (st : V → NodeState) {ol : OpenList V}
    (hW : ∀ v, v ≠ node → (inOpen ol v ↔ g v ≠ rhs v)) :
    ∀ v, inOpen (update_vertex G node rhs g st ol).2 v
      ↔ g v ≠ (update_vertex G node rhs g st ol).1 v := by
  intro v
  rw [update_vertex_inOpen h]
  by_cases hv : v = node
  · subst hv
    rw [update_vertex_fst h, Function.update_same]
    constructor
    · rintro (⟨-, hne⟩ | ⟨hgr, -⟩)
      · exact absurd rfl hne
      · exact hgr
    · intro hgr
      exact Or.inr ⟨hgr, rfl⟩
  · rw [update_vertex_rhs_other hv]
    constructor
    · rintro (⟨hin, -⟩ | ⟨-, he⟩)
      · exact (hW v hv).1 hin
      · exact absurd he hv
    · intro hgr
      exact Or.inl ⟨(hW v hv).2 hgr, hv⟩

theorem update_vertex_W_full {G : Grid V} {node : V}
    {rhs g : V → Cost} (st : V → NodeState) {ol : OpenList V}
    (hW : ∀ v, inOpen ol v ↔ g v ≠ rhs v) :
    ∀ v, inOpen (update_vertex G node rhs g st ol).2 v
      ↔ g v ≠ (update_vertex G node rhs g st ol).1 v := by
  by_cases h : node = G.start
  · rw [update_vertex_start h]
    exact hW
  · exact update_vertex_W_ne h st (fun v _ => hW v)

theorem update_vertex_U {G : Grid V} {node : V}
    (rhs g : V → Cost) (st : V → NodeState) {ol : OpenList V}
    (hU : (ol.map Prod.snd).Nodup) :
    ((update_vertex G node rhs g st ol).2.map Prod.snd).Nodup := by
  by_cases h : node = G.start
  · rw [update_vertex_start h]
    exact hU
  · rw [update_vertex_snd h]
    have hfil : ((ol.filter fun e => decide (e.2 ≠ node)).map Prod.snd).Nodup :=
      ((List.filter_sublist ol).map Prod.snd).nodup hU
    split
    · rw [List.map_append, List.nodup_append]
      refine ⟨hfil, List.nodup_singleton _, ?_⟩
      intro v hv hv'
      simp only [List.map_cons, List.map_nil, List.mem_singleton] at hv'
      subst hv'
      obtain ⟨e, he, he2⟩ := List.mem_map.1 hv
      exact absurd he2 (of_decide_eq_true (List.mem_filter.1 he).2)
    · rw [List.append_nil]
      exact hfil

/-! ### `popMin` behaves as `heappop` -/

theorem popMin_none_iff {l : OpenList V} : popMin l = none ↔ l = [] := by
  constructor
  · intro h
    cases l with
    | nil => rfl
    | cons hd tl =>
      exfalso
      rw [popMin] at h
      cases hm : popMin tl with
      | none => rw [hm] at h; cases h
      | some pr =>
        rw [hm] at h
        obtain ⟨m, rest⟩ := pr
        dsimp at h
        split at h <;> cases h
  · rintro rfl
    rfl

theorem popMin_perm {l : OpenList V} :
    ∀ {e : Key × V} {r : OpenList V}, popMin l = some (e, r) → l.Perm (e :: r) := by
  induction l with
  | nil => intro e r h; cases h
  | cons hd tl ih =>
    intro e r h
    rw [popMin] at h
    cases hm : popMin tl with
    | none =>
      rw [hm] at h
      obtain rfl : tl = [] := popMin_none_iff.1 hm
      injection h with h'
      injection h' with h1 h2
      subst h1; subst h2
      exact List.Perm.refl _
    | some pr =>
      obtain ⟨m, rest⟩ := pr
      rw [hm] at h
      dsimp at h
      split at h
      · injection h with h'
        injection h' with h1 h2
        subst h1; subst h2
        exact ((ih hm).cons hd).trans (List.Perm.swap _ _ _)
      · injection h with h'
        injection h' with h1 h2
        subst h1; subst h2
        exact List.Perm.refl _

theorem popMin_min {l : OpenList V} :
    ∀ {e : Key × V} {r : OpenList V}, popMin l = some (e, r) →
      ∀ f ∈ r, ¬ keyLt f.1 e.1 := by
  induction l with
  | nil => intro e r h; cases h
  | cons hd tl ih =>
    intro e r h
    rw [popMin] at h
    cases hm : popMin tl with
    | none =>
      rw [hm] at h
      injection h with h'
      injection h' with h1 h2
      subst h1; subst h2
      intro f hf
      cases hf
    | some pr =>
      obtain ⟨m, rest⟩ := pr
      rw [hm] at h
      dsimp at h
      split at h
      · rename_i hlt
        injection h with h'
        injection h' with h1 h2
        subst h1; subst h2
        intro f hf
        rcases List.mem_cons.1 hf with rfl | hf'
        · exact keyLt_asymm hlt
        · exact ih hm f hf'
      · rename_i hlt
        injection h with h'
        injection h' with h1 h2
        subst h1; subst h2
        intro f hf
        rcases List.mem_cons.1 ((popMin_perm hm).mem_iff.1 hf) with rfl | hf'
        · exact hlt
        · exact not_keyLt_trans hlt (ih hm f hf')

theorem popMin_mem {l : OpenList V} {e : Key × V} {r : OpenList V}
    (h : popMin l = some (e, r)) : e ∈ l :=
  (popMin_perm h).mem_iff.2 (List.mem_cons_self _ _)

/-- After popping from a duplicate-free open list, the popped node has no
remaining entry, and the other nodes' membership is unchanged. -/
theorem popMin_inOpen {l : OpenList V} {e : Key × V} {r : OpenList V}
    (h : popMin l = some (e, r)) (hU : (l.map Prod.snd).Nodup) :
    ¬ inOpen r e.2 ∧ ∀ v, v ≠ e.2 → (inOpen r v ↔ inOpen l v) := by
  have hmap : (l.map Prod.snd).Perm (e.2 :: r.map Prod.snd) := by
    have := (popMin_perm h).map Prod.snd
    simpa using this
  have hnd : (e.2 :: r.map Prod.snd).Nodup := hmap.nodup_iff.1 hU
  constructor
  · exact fun hin => (List.nodup_cons.1 hnd).1 hin
  · intro v hv
    rw [inOpen, inOpen, hmap.mem_iff, List.mem_cons]
    constructor
    · exact fun hin => Or.inr hin
    · rintro (rfl | hin)
      · exact absurd rfl hv
      · exact hin

/-! ### Preservation of the invariants through one loop iteration -/

theorem settle_inv {G : Grid V} {nd : V} {s : EngineState V}
    (hW : ∀ v, v ≠ nd → (inOpen s.openList v ↔ s.g v ≠ s.rhs v))
    (hnotin : ¬ inOpen s.openList nd)
    (hU : Uinv s) (hR : Rinv G s) (hG : Ginv G s)
    (hincons : s.g nd ≠ s.rhs nd) :
    Winv (settle G nd s) ∧ Uinv (settle G nd s) ∧ Rinv G (settle G nd s)
      ∧ Ginv G (settle G nd s) := by
  rw [settle]
  by_cases hover : s.rhs nd < s.g nd
  · rw [if_pos hover]
    refine ⟨?_, hU, hR, ?_⟩
    · intro v
      by_cases hv : v = nd
      · subst hv
        show inOpen s.openList v ↔ Function.update s.g v (s.rhs v) v ≠ s.rhs v
        rw [Function.update_same]
        exact ⟨fun hin => absurd hin hnotin, fun hne => absurd rfl hne⟩
      · show inOpen s.openList v ↔ Function.update s.g nd (s.rhs nd) v ≠ s.rhs v
        rw [Function.update_noteq hv]
        exact hW v hv
    · by_cases hs : G.start = nd
      · left
        show Function.update s.g nd (s.rhs nd) G.start = 0
        rw [hs, Function.update_same, ← hs, hR]
      · show Function.update s.g nd (s.rhs nd) G.start = 0
          ∨ Function.update s.g nd (s.rhs nd) G.start = ⊤
        rw [Function.update_noteq hs]
        exact hG
  · rw [if_neg hover]
    have hndstart : nd ≠ G.start := by
      intro hnd
      subst hnd
      have hgtop : s.g G.start = ⊤ := by
        rcases hG with h0 | htop
        · exact absurd (h0.trans hR.symm) hincons
        · exact htop
      refine hover ?_
      rw [hR, hgtop]
      exact WithTop.coe_lt_top 0
    refine ⟨?_, ?_, ?_, ?_⟩
    · exact update_vertex_W_ne hndstart s.tag (fun v hv => by
        show inOpen s.openList v ↔ Function.update s.g nd ⊤ v ≠ s.rhs v
        rw [Function.update_noteq hv]
        exact hW v hv)
    · show ((update_vertex G nd s.rhs (Function.update s.g nd ⊤) s.tag
        s.openList).2.map Prod.snd).Nodup
      exact update_vertex_U _ _ _ hU
    · show (update_vertex G nd s.rhs (Function.update s.g nd ⊤) s.tag
        s.openList).1 G.start = 0
      rw [update_vertex_rhs_other (Ne.symm hndstart)]
      exact hR
    · show Function.update s.g nd ⊤ G.start = 0 ∨ Function.update s.g nd ⊤ G.start = ⊤
      rw [Function.update_noteq (Ne.symm hndstart)]
      exact hG

theorem nbr_step_inv {G : Grid V} {s : EngineState V} (m : V)
    (hW : Winv s) (hU : Uinv s) (hR : Rinv G s) (hG : Ginv G s) :
    Winv (nbr_step G s m) ∧ Uinv (nbr_step G s m) ∧ Rinv G (nbr_step G s m)
      ∧ Ginv G (nbr_step G s m) := by
  refine ⟨?_, ?_, ?_, hG⟩
  · show ∀ v, inOpen (update_vertex G m s.rhs s.g (uncheck_if_needed s.tag m)
        s.openList).2 v
      ↔ s.g v ≠ (update_vertex G m s.rhs s.g (uncheck_if_needed s.tag m)
        s.openList).1 v
    exact update_vertex_W_full _ hW
  · show ((update_vertex G m s.rhs s.g (uncheck_if_needed s.tag m)
      s.openList).2.map Prod.snd).Nodup
    exact update_vertex_U _ _ _ hU
  · show (update_vertex G m s.rhs s.g (uncheck_if_needed s.tag m)
      s.openList).1 G.start = 0
    by_cases hm : m = G.start
    · rw [update_vertex_start hm]
      exact hR
    · rw [update_vertex_rhs_other (Ne.symm hm)]
      exact hR

theorem process_neighbors_inv {G : Grid V} :
    ∀ (l : List V) {s : EngineState V},
      Winv s → Uinv s → Rinv G s → Ginv G s →
      Winv (process_neighbors G s l) ∧ Uinv (process_neighbors G s l)
        ∧ Rinv G (process_neighbors G s l) ∧ Ginv G (process_neighbors G s l) := by
  intro l
  induction l with
  | nil => intro s hW hU hR hG; exact ⟨hW, hU, hR, hG⟩
  | cons m ls ih =>
    intro s hW hU hR hG
    obtain ⟨hW', hU', hR', hG'⟩ := nbr_step_inv m hW hU hR hG
    exact ih hW' hU' hR' hG'

theorem afterPop_inv {G : Grid V} {c : Bool} {s : EngineState V}
    {e : Key × V} {rest : OpenList V}
    (hpop : popMin s.openList = some (e, rest))
    (hW : Winv s) (hU : Uinv s) (hR : Rinv G s) (hG : Ginv G s) :
    Winv (afterPop G c s e rest) ∧ Uinv (afterPop G c s e rest)
      ∧ Rinv G (afterPop G c s e rest) ∧ Ginv G (afterPop G c s e rest) := by
  obtain ⟨hnin, hother⟩ := popMin_inOpen hpop hU
  have hincons : s.g e.2 ≠ s.rhs e.2 :=
    (hW e.2).1 (List.mem_map.2 ⟨e, popMin_mem hpop, rfl⟩)
  have hUrest : (rest.map Prod.snd).Nodup := by
    have hmap : (s.openList.map Prod.snd).Perm (e.2 :: rest.map Prod.snd) := by
      have := (popMin_perm hpop).map Prod.snd
      simpa using this
    exact (List.nodup_cons.1 (hmap.nodup_iff.1 hU)).2
  have h2 := settle_inv (s := { s with run := c, openList := rest, topKey := e.1 })
    (fun v hv => (hother v hv).trans (hW v)) hnin hUrest hR hG hincons
  have h3 := process_neighbors_inv (G.neighbors e.2) h2.1 h2.2.1 h2.2.2.1 h2.2.2.2
  exact h3

/-! ### Loop-head states of `lpa_star` -/

/-- The engine states visible at the start of each main-loop iteration of
`lpa_star`, for a given grid and cancellation signal: the state after
initialisation, and every state produced by a full loop body executed when the
while-condition and the `run` flag both held.  `rpFuel` is the modelling fuel
given to `reconstruct_path`. -/
inductive ReachesHead (G : Grid V) (cancel : ℕ → Bool) : ℕ → EngineState V → Prop
  | init : ReachesHead G cancel 0 (startState G)
  | step {i : ℕ} {s s' : EngineState V} {rpFuel : ℕ} :
      ReachesHead G cancel i s → loopCond G s → s.run = true →
      lpa_step G (cancel i) rpFuel s = .ok s' → ReachesHead G cancel (i + 1) s'

theorem lpa_step_ok_elim {G : Grid V} {c : Bool} {f : ℕ} {s s' : EngineState V}
    (h : lpa_step G c f s = .ok s') :
    ∃ e rest, popMin s.openList = some (e, rest)
      ∧ ((e.2 ≠ G.stop ∧ s' = afterPop G c s e rest)
          ∨ (e.2 = G.stop ∧ ∃ st',
              reconstruct_path G f G.stop (afterPop G c s e rest).rhs
                  (afterPop G c s e rest).tag = .ok st'
              ∧ s' = { afterPop G c s e rest with tag := st' })) := by
  rw [lpa_step] at h
  cases hp : popMin s.openList with
  | none => rw [hp] at h; cases h
  | some pr =>
    obtain ⟨e, rest⟩ := pr
    rw [hp] at h
    dsimp only at h
    by_cases he : e.2 = G.stop
    · rw [if_pos he, he] at h
      refine ⟨e, rest, rfl, Or.inr ⟨he, ?_⟩⟩
      cases hr : reconstruct_path G f G.stop (afterPop G c s e rest).rhs
          (afterPop G c s e rest).tag with
      | ok st' =>
        rw [hr] at h
        injection h with h1
        exact ⟨st', rfl, h1.symm⟩
      | valueError st' => rw [hr] at h; cases h
      | outOfFuel => rw [hr] at h; cases h
    · rw [if_neg he] at h
      injection h with h1
      exact ⟨e, rest, rfl, Or.inl ⟨he, h1.symm⟩⟩

theorem startState_inv (G : Grid V) :
    Winv (startState G) ∧ Uinv (startState G) ∧ Rinv G (startState G)
      ∧ Ginv G (startState G) := by
  refine ⟨?_, ?_, ?_, Or.inr rfl⟩
  · intro v
    show v ∈ [G.start] ↔ (⊤ : Cost) ≠ Function.update (fun _ => (⊤ : Cost)) G.start 0 v
    rw [List.mem_singleton]
    by_cases hv : v = G.start
    · subst hv
      rw [Function.update_same]
      refine ⟨fun _ h0 => ?_, fun _ => rfl⟩
      cases h0
    · rw [Function.update_noteq hv]
      exact ⟨fun h => absurd h hv, fun h => absurd rfl h⟩
  · exact List.nodup_singleton _
  · show Function.update (fun _ => (⊤ : Cost)) G.start 0 G.start = 0
    rw [Function.update_same]

theorem reachesHead_inv {G : Grid V} {cancel : ℕ → Bool} :
    ∀ {i : ℕ} {s : EngineState V}, ReachesHead G cancel i s →
      Winv s ∧ Uinv s ∧ Rinv G s ∧ Ginv G s := by
  intro i s h
  induction h with
  | init => exact startState_inv G
  | step hreach hcond hrun hstep ih =>
    obtain ⟨hW, hU, hR, hG⟩ := ih
    obtain ⟨e, rest, hpop, hcases⟩ := lpa_step_ok_elim hstep
    rcases hcases with ⟨-, rfl⟩ | ⟨-, st', -, rfl⟩
    · exact afterPop_inv hpop hW hU hR hG
    · exact afterPop_inv hpop hW hU hR hG

/-- C6: at the start of every main-loop iteration of every run, a node has an
entry in the open list iff it is locally inconsistent, and the open list has at
most one entry per node. -/
theorem open_iff_inconsistent_at_loop_head (G : Grid V) (cancel : ℕ → Bool)
    {i : ℕ} {s : EngineState V} (h : ReachesHead G cancel i s) :
    (∀ v, inOpen s.openList v ↔ s.g v ≠ s.rhs v)
      ∧ (s.openList.map Prod.snd).Nodup :=
  ⟨(reachesHead_inv h).1, (reachesHead_inv h).2.1⟩

/-- C6, witness at a concrete reachable state. -/
theorem open_iff_inconsistent_at_loop_head_witness :
    ReachesHead exGrid (fun _ => true) 0 (startState exGrid)
      ∧ ((∀ v, inOpen (startState exGrid).openList v
            ↔ (startState exGrid).g v ≠ (startState exGrid).rhs v)
          ∧ ((startState exGrid).openList.map Prod.snd).Nodup) :=
  ⟨ReachesHead.init,
    open_iff_inconsistent_at_loop_head exGrid (fun _ => true) ReachesHead.init⟩

/-- C8: `rhs[start]` is 0 at the start of every main-loop iteration of every
run, and no `update_vertex` call ever writes `rhs[start]` (so it is 0 at every
point in between as well: `update_vertex` is the only operation that writes
`rhs`). -/
theorem rhs_start_always_zero (G : Grid V) (cancel : ℕ → Bool) :
    (∀ i s, ReachesHead G cancel i s → s.rhs G.start = 0)
      ∧ ∀ (node : V) (rhs g : V → Cost) (st : V → NodeState) (ol : OpenList V),
          (update_vertex G node rhs g st ol).1 G.start = rhs G.start := by
  constructor
  · intro i s h
    exact (reachesHead_inv h).2.2.1
  · intro node rhs g st ol
    by_cases hm : node = G.start
    · rw [update_vertex_start hm]
    · rw [update_vertex_rhs_other (Ne.symm hm)]

/-- C8, witness at a concrete reachable state. -/
theorem rhs_start_always_zero_witness :
    ReachesHead exGrid (fun _ => true) 0 (startState exGrid)
      ∧ (startState exGrid).rhs exGrid.start = 0 :=
  ⟨ReachesHead.init,
    (rhs_start_always_zero exGrid (fun _ => true)).1 0 _ ReachesHead.init⟩

/-! ### C2: the cancellation poll's arity mismatch -/

theorem loopCond_startState (G : Grid V) : loopCond G (startState G) := by
  by_cases h : G.stop = G.start
  · right
    show (startState G).rhs G.stop ≠ (startState G).g G.stop
    show Function.update (fun _ => (⊤ : Cost)) G.start 0 G.stop ≠ ⊤
    rw [h, Function.update_same]
    exact fun h0 => by cases h0
  · left
    show keyLt (calc_key G G.start (startState G).g (startState G).rhs)
      (calc_key G G.stop (startState G).g (startState G).rhs)
    have hrs : (startState G).rhs G.start = 0 := by
      show Function.update (fun _ => (⊤ : Cost)) G.start 0 G.start = 0
      rw [Function.update_same]
    have hre : (startState G).rhs G.stop = ⊤ := by
      show Function.update (fun _ => (⊤ : Cost)) G.start 0 G.stop = ⊤
      rw [Function.update_noteq h]
    have hg : ∀ v, (startState G).g v = ⊤ := fun _ => rfl
    left
    rw [calc_key, calc_key, hrs, hre, hg, hg]
    show (min ⊤ 0 + _ : Cost) < min ⊤ ⊤ + _
    rw [min_eq_right (le_top : (0 : Cost) ≤ ⊤), min_self, top_add, zero_add]
    exact WithTop.coe_lt_top _

/-- C2: `check` is defined in RP.py with one parameter but called by
`lpa_star` with two arguments, so for every grid the source-faithful engine
raises `TypeError` in the first loop iteration — the while-condition holds
initially, the body is entered, and the arity-checked call fails before
anything else runs, leaving the state as initialised. -/
theorem lpa_star_py_raises_typeError (G : Grid V) (fuel : ℕ) :
    lpa_star_py G (fuel + 1)
      = RunOutcomePy.raised PyErr.typeError (startState G) := by
  rw [lpa_star_py, lpa_loop_py, if_pos (loopCond_startState G)]
  rfl

/-! ### C1: convergence implies end-consistency and a dominated open list

The remaining development proves the termination invariant: whenever the main
loop exits because its while-condition proper became false, the end node is
locally consistent and every queued entry's key — stored keys are always fresh
with respect to the current `g` and `rhs` — is at least `calc_key(end)`. -/

/-- Well-formedness of a grid, modelled from the spec's data model: adjacency
is symmetric and irreflexive, node identity is the grid coordinate (positions
are injective), start and end are distinct cells, and the initial state tags
are the start tag on the start node, the end tag on the end node, and checked
or unchecked elsewhere (barrier cells never appear as engine nodes since
neighbor lists exclude them). -/
structure GridWF (G : Grid V) : Prop where
  symm : ∀ a b : V, a ∈ G.neighbors b → b ∈ G.neighbors a
  irrefl : ∀ a : V, a ∉ G.neighbors a
  posInj : ∀ a b : V, G.pos a = G.pos b → a = b
  startNeStop : G.start ≠ G.stop
  tagStart : G.initTag G.start = NodeState.startTag
  tagStop : G.initTag G.stop = NodeState.endTag
  tagOther : ∀ v, v ≠ G.start → v ≠ G.stop →
    G.initTag v = NodeState.unchecked ∨ G.initTag v = NodeState.checked

/-- The state tags a running grid can show before the end node is ever popped. -/
def TagsOK (G : Grid V) (t : V → NodeState) : Prop :=
  t G.start = NodeState.startTag ∧ t G.stop = NodeState.endTag
    ∧ ∀ v, v ≠ G.start → v ≠ G.stop →
        (t v = NodeState.unchecked ∨ t v = NodeState.checked)

/-- Every stored open-list key is the key `calc_key` would compute from the
current `g` and `rhs` (stored keys are fresh). -/
def Ainv (G : Grid V) (s : EngineState V) : Prop :=
  ∀ e ∈ s.openList, e.1 = calc_key G e.2 s.g s.rhs

/-- `topKey` has a finite first component. -/
def Tinv (s : EngineState V) : Prop :=
  s.topKey.1 ≠ ⊤

/-- Every non-start node's stored `rhs` agrees with the `update_vertex`
recomputation over the current `g` and state tags. -/
def Cinv (G : Grid V) (s : EngineState V) : Prop :=
  ∀ v, v ≠ G.start → s.rhs v = rhs_from_neighbors G v s.g s.tag

/-- The phase before the end node is first popped. -/
def PreInv (G : Grid V) (s : EngineState V) : Prop :=
  s.g G.stop = ⊤ ∧ TagsOK G s.tag ∧ Cinv G s

/-- The phase right after the end node's pop: the end node is consistent,
`topKey` dominates `calc_key(end)`, and so does every queued entry. -/
def PostInv (G : Grid V) (s : EngineState V) : Prop :=
  s.rhs G.stop = s.g G.stop
    ∧ ¬ keyLt s.topKey (calc_key G G.stop s.g s.rhs)
    ∧ ∀ e ∈ s.openList, ¬ keyLt e.1 (calc_key G G.stop s.g s.rhs)

/-- The full loop-head invariant of the C1 proof. -/
def LoopInv (G : Grid V) (s : EngineState V) : Prop :=
  Winv s ∧ Uinv s ∧ Rinv G s ∧ Ginv G s ∧ Ainv G s ∧ Tinv s
    ∧ (PreInv G s ∨ PostInv G s)

/-! ### Small arithmetic and key lemmas -/

theorem cost_lt_add_one {c : Cost} (h : c ≠ ⊤) : c < c + 1 := by
  cases c with
  | none => exact absurd rfl h
  | some n =>
    show (n : Cost) < (n : Cost) + 1
    exact_mod_cast Nat.lt_succ_self n

theorem min_ne_top_of_ne {a b : Cost} (h : a ≠ b) : min a b ≠ ⊤ := by
  rcases min_cases a b with ⟨hm, hle⟩ | ⟨hm, hle⟩
  · intro htop
    rw [hm] at htop
    exact h (htop.trans (top_le_iff.1 (htop ▸ hle)).symm)
  · intro htop
    rw [hm] at htop
    exact h ((top_le_iff.1 (htop ▸ hle.le)).trans htop.symm)

theorem manhattan_self (p : ℤ × ℤ) : manhattan p p = 0 := by
  simp [manhattan]

theorem manhattan_pos {p q : ℤ × ℤ} (h : p ≠ q) : 1 ≤ manhattan p q := by
  by_contra hlt
  push_neg at hlt
  interval_cases hm : manhattan p q
  rw [manhattan] at hm
  refine h ?_
  have h1 : (p.1 - q.1).natAbs = 0 := by omega
  have h2 : (p.2 - q.2).natAbs = 0 := by omega
  have e1 : p.1 = q.1 := by
    have := Int.natAbs_eq_zero.1 h1
    omega
  have e2 : p.2 = q.2 := by
    have := Int.natAbs_eq_zero.1 h2
    omega
  exact Prod.ext e1 e2

/-- On a state where `g[end]` is infinite, `calc_key(end)` collapses to the
pair `(rhs[end], rhs[end])` since the heuristic from the end to itself is 0. -/
theorem calc_key_stop_top {G : Grid V} {g rhs : V → Cost} (h : g G.stop = ⊤) :
    calc_key G G.stop g rhs = (rhs G.stop, rhs G.stop) := by
  rw [calc_key, h, manhattan_self, min_eq_right le_top]
  simp

/-- When `g[end]` and `rhs[end]` agree, `calc_key(end)` is that shared value
twice. -/
theorem calc_key_stop_eq {G : Grid V} {g rhs : V → Cost}
    (h : g G.stop = rhs G.stop) :
    calc_key G G.stop g rhs = (rhs G.stop, rhs G.stop) := by
  rw [calc_key, h, manhattan_self, min_self]
  simp

/-! ### State-tag stability of the engine's mutations -/

theorem uncheck_if_needed_eq {st : V → NodeState} {m : V}
    (h : st m = NodeState.unchecked ∨ st m = NodeState.checked
      ∨ st m = NodeState.startTag ∨ st m = NodeState.endTag) :
    uncheck_if_needed st m = st := by
  rcases h with h | h | h | h
  · rw [uncheck_if_needed, if_neg (by simp [h]), ← h, Function.update_eq_self]
  · rw [uncheck_if_needed, if_pos (Or.inr (Or.inr h))]
  · rw [uncheck_if_needed, if_pos (Or.inl h)]
  · rw [uncheck_if_needed, if_pos (Or.inr (Or.inl h))]

theorem tagsOK_tag4 {G : Grid V} {t : V → NodeState} (hok : TagsOK G t) (m : V) :
    t m = NodeState.unchecked ∨ t m = NodeState.checked
      ∨ t m = NodeState.startTag ∨ t m = NodeState.endTag := by
  by_cases hs : m = G.start
  · subst hs
    exact Or.inr (Or.inr (Or.inl hok.1))
  · by_cases he : m = G.stop
    · subst he
      exact Or.inr (Or.inr (Or.inr hok.2.1))
    · rcases hok.2.2 m hs he with h | h
      · exact Or.inl h
      · exact Or.inr (Or.inl h)

theorem tagsOK_uncheck {G : Grid V} {t : V → NodeState} (hok : TagsOK G t) :
    ∀ m, uncheck_if_needed t m = t :=
  fun m => uncheck_if_needed_eq (tagsOK_tag4 hok m)

theorem tagsOK_check {G : Grid V} {t : V → NodeState} (hok : TagsOK G t)
    (nd : V) : TagsOK G (check_if_needed t nd) := by
  rw [check_if_needed]
  split
  · exact hok
  · rename_i hcond
    refine ⟨?_, ?_, ?_⟩
    · have hnd : nd ≠ G.start := fun he =>
        hcond (Or.inl (by rw [he, hok.1]))
      rw [Function.update_noteq (Ne.symm hnd)]
      exact hok.1
    · have hnd : nd ≠ G.stop := fun he =>
        hcond (Or.inr (by rw [he, hok.2.1]))
      rw [Function.update_noteq (Ne.symm hnd)]
      exact hok.2.1
    · intro v hv1 hv2
      by_cases hvnd : v = nd
      · subst hvnd
        rw [Function.update_same]
        exact Or.inr rfl
      · rw [Function.update_noteq hvnd]
        exact hok.2.2 v hv1 hv2

theorem check_if_needed_qualifies {st : V → NodeState} {nd : V} (bc : V → Bool)
    (h4 : st nd = NodeState.unchecked ∨ st nd = NodeState.checked
      ∨ st nd = NodeState.startTag ∨ st nd = NodeState.endTag) :
    ∀ m, qualifies (check_if_needed st nd) bc m = qualifies st bc m := by
  intro m
  rw [check_if_needed]
  split
  · rfl
  · rename_i hcond
    by_cases hm : m = nd
    · subst hm
      have hmu : st m = NodeState.unchecked ∨ st m = NodeState.checked := by
        rcases h4 with h | h | h | h
        · exact Or.inl h
        · exact Or.inr h
        · exact absurd (Or.inl h) hcond
        · exact absurd (Or.inr h) hcond
      rcases hmu with h | h <;>
        simp [qualifies, Function.update_same, h]
    · rw [qualifies, qualifies, Function.update_noteq hm]

/-! ### Freshness of stored keys through `update_vertex` -/

theorem update_vertex_A {G : Grid V} (node : V) {rhs g : V → Cost}
    (st : V → NodeState) {ol : OpenList V}
    (hA : ∀ e ∈ ol, e.1 = calc_key G e.2 g rhs) :
    ∀ e ∈ (update_vertex G node rhs g st ol).2,
      e.1 = calc_key G e.2 g (update_vertex G node rhs g st ol).1 := by
  by_cases h : node = G.start
  · rw [update_vertex_start h]
    exact hA
  · intro e he
    rw [update_vertex_fst h]
    rcases (update_vertex_mem h rhs g st ol e).1 he with ⟨h1, h2⟩ | ⟨-, rfl⟩
    · rw [hA e h1]
      exact calc_key_congr rfl (Function.update_noteq h2 _ _).symm
    · rfl

/-! ### Structural facts about the neighbor loop -/

theorem process_neighbors_nil (G : Grid V) (s : EngineState V) :
    process_neighbors G s [] = s := rfl

theorem process_neighbors_cons (G : Grid V) (s : EngineState V) (m : V)
    (ls : List V) :
    process_neighbors G s (m :: ls) = process_neighbors G (nbr_step G s m) ls := rfl

theorem process_neighbors_g (G : Grid V) :
    ∀ (l : List V) (s : EngineState V), (process_neighbors G s l).g = s.g := by
  intro l
  induction l with
  | nil => intro s; rfl
  | cons m ls ih =>
    intro s
    rw [process_neighbors_cons, ih]
    rfl

theorem process_neighbors_topKey (G : Grid V) :
    ∀ (l : List V) (s : EngineState V),
      (process_neighbors G s l).topKey = s.topKey := by
  intro l
  induction l with
  | nil => intro s; rfl
  | cons m ls ih =>
    intro s
    rw [process_neighbors_cons, ih]
    rfl

theorem process_neighbors_tag {G : Grid V} {tag0 : V → NodeState}
    (hunch : ∀ m, uncheck_if_needed tag0 m = tag0) :
    ∀ (l : List V) (s : EngineState V), s.tag = tag0 →
      (process_neighbors G s l).tag = tag0 := by
  intro l
  induction l with
  | nil => intro s h; exact h
  | cons m ls ih =>
    intro s htag
    rw [process_neighbors_cons]
    refine ih _ ?_
    show uncheck_if_needed s.tag m = tag0
    rw [htag, hunch]

theorem process_neighbors_rhs {G : Grid V} {tag0 : V → NodeState}
    (hunch : ∀ m, uncheck_if_needed tag0 m = tag0) {g0 : V → Cost} :
    ∀ (l : List V) (s : EngineState V), s.tag = tag0 → s.g = g0 →
      (∀ v, (v ∉ l ∨ v = G.start) → (process_neighbors G s l).rhs v = s.rhs v)
        ∧ (∀ v, v ∈ l → v ≠ G.start →
            (process_neighbors G s l).rhs v = rhs_from_neighbors G v g0 tag0) := by
  intro l
  induction l with
  | nil =>
    intro s _ _
    exact ⟨fun v _ => rfl, fun v hv _ => absurd hv (List.not_mem_nil v)⟩
  | cons m ls ih =>
    intro s htag hg
    have htag' : (nbr_step G s m).tag = tag0 := by
      show uncheck_if_needed s.tag m = tag0
      rw [htag, hunch]
    have hg' : (nbr_step G s m).g = g0 := hg
    obtain ⟨ih1, ih2⟩ := ih (nbr_step G s m) htag' hg'
    have hstepother : ∀ v, v ≠ m ∨ v = G.start → (nbr_step G s m).rhs v = s.rhs v := by
      intro v hv
      show (update_vertex G m s.rhs s.g (uncheck_if_needed s.tag m)
        s.openList).1 v = s.rhs v
      rcases hv with hvm | hstart
      · exact update_vertex_rhs_other hvm _ _ _ _
      · subst hstart
        by_cases hms : m = G.start
        · rw [update_vertex_start hms]
        · exact update_vertex_rhs_other (Ne.symm hms) _ _ _ _
    constructor
    · intro v hv
      have hv' : v ∉ ls ∨ v = G.start := by
        rcases hv with hnm | hst
        · exact Or.inl (fun hmem => hnm (List.mem_cons_of_mem m hmem))
        · exact Or.inr hst
      rw [process_neighbors_cons, ih1 v hv']
      refine hstepother v ?_
      rcases hv with hnm | hst
      · exact Or.inl (fun he => hnm (he ▸ List.mem_cons_self m ls))
      · exact Or.inr hst
    · intro v hv hvs
      rcases List.mem_cons.1 hv with rfl | hv'
      · by_cases hmem : v ∈ ls
        · rw [process_neighbors_cons]
          exact ih2 v hmem hvs
        · rw [process_neighbors_cons, ih1 v (Or.inl hmem)]
          show (update_vertex G v s.rhs s.g (uncheck_if_needed s.tag v)
            s.openList).1 v = rhs_from_neighbors G v g0 tag0
          rw [update_vertex_fst hvs, Function.update_same, htag, hunch, hg]
      · rw [process_neighbors_cons]
        exact ih2 v hv' hvs

theorem process_neighbors_A {G : Grid V} :
    ∀ (l : List V) (s : EngineState V),
      (∀ e ∈ s.openList, e.1 = calc_key G e.2 s.g s.rhs) →
      ∀ e ∈ (process_neighbors G s l).openList,
        e.1 = calc_key G e.2 s.g (process_neighbors G s l).rhs := by
  intro l
  induction l with
  | nil => intro s hA; exact hA
  | cons m ls ih =>
    intro s hA
    rw [process_neighbors_cons]
    exact ih (nbr_step G s m)
      (update_vertex_A m (uncheck_if_needed s.tag m) hA)

/-! ### The neighbor loop of the end node's pop never queues a key below
`(rhs[end], rhs[end])` -/

theorem postFold_bound {G : Grid V} (hWF : GridWF G) {gOld : V → Cost}
    {tag0 : V → NodeState} {vc : Cost}
    (hgtop : gOld G.stop = ⊤) (hvc : vc ≠ ⊤)
    (hunch : ∀ m, uncheck_if_needed tag0 m = tag0) :
    ∀ (l : List V), (∀ m ∈ l, m ≠ G.stop) →
      ∀ (s : EngineState V),
      s.g = Function.update gOld G.stop vc →
      s.tag = tag0 →
      Winv s →
      (∀ e ∈ s.openList,
        e.1 = calc_key G e.2 (Function.update gOld G.stop vc) s.rhs) →
      (∀ e ∈ s.openList, ¬ keyLt e.1 (vc, vc)) →
      (∀ m, m ≠ G.start → s.rhs m = rhs_from_neighbors G m gOld tag0
          ∨ s.rhs m = rhs_from_neighbors G m (Function.update gOld G.stop vc) tag0) →
      ((∀ e ∈ (process_neighbors G s l).openList, ¬ keyLt e.1 (vc, vc))
        ∧ Winv (process_neighbors G s l)
        ∧ (∀ e ∈ (process_neighbors G s l).openList,
            e.1 = calc_key G e.2 (Function.update gOld G.stop vc)
              (process_neighbors G s l).rhs)
        ∧ (∀ m, m ≠ G.start →
            (process_neighbors G s l).rhs m = rhs_from_neighbors G m gOld tag0
              ∨ (process_neighbors G s l).rhs m
                  = rhs_from_neighbors G m (Function.update gOld G.stop vc) tag0)) := by
  intro l
  induction l with
  | nil =>
    intro _ s _ _ hW hA hbound hCmix
    exact ⟨hbound, hW, hA, hCmix⟩
  | cons m ls ih =>
    intro hl s hg htag hW hA hbound hCmix
    have hlls : ∀ m' ∈ ls, m' ≠ G.stop := fun m' hm' =>
      hl m' (List.mem_cons_of_mem m hm')
    have htagarg : uncheck_if_needed s.tag m = tag0 := by
      rw [htag]
      exact hunch m
    rw [process_neighbors_cons]
    by_cases hms : m = G.start
    · -- `update_vertex` on the start node changes nothing
      refine ih hlls (nbr_step G s m) hg ?_ ?_ ?_ ?_ ?_
      · show uncheck_if_needed s.tag m = tag0
        exact htagarg
      · show ∀ v, inOpen (update_vertex G m s.rhs s.g (uncheck_if_needed s.tag m)
          s.openList).2 v
          ↔ s.g v ≠ (update_vertex G m s.rhs s.g (uncheck_if_needed s.tag m)
            s.openList).1 v
        rw [update_vertex_start hms]
        exact hW
      · show ∀ e ∈ (update_vertex G m s.rhs s.g (uncheck_if_needed s.tag m)
          s.openList).2, e.1 = calc_key G e.2 (Function.update gOld G.stop vc)
            (update_vertex G m s.rhs s.g (uncheck_if_needed s.tag m) s.openList).1
        rw [update_vertex_start hms]
        exact hA
      · show ∀ e ∈ (update_vertex G m s.rhs s.g (uncheck_if_needed s.tag m)
          s.openList).2, ¬ keyLt e.1 (vc, vc)
        rw [update_vertex_start hms]
        exact hbound
      · intro m' hm'
        show (update_vertex G m s.rhs s.g (uncheck_if_needed s.tag m)
            s.openList).1 m' = rhs_from_neighbors G m' gOld tag0
          ∨ (update_vertex G m s.rhs s.g (uncheck_if_needed s.tag m)
            s.openList).1 m'
              = rhs_from_neighbors G m' (Function.update gOld G.stop vc) tag0
        rw [update_vertex_start hms]
        exact hCmix m' hm'
    · -- a genuine vertex update
      have hmstop : m ≠ G.stop := hl m (List.mem_cons_self m ls)
      have hgm : s.g m = gOld m := by
        rw [hg, Function.update_noteq hmstop]
      set r := rhs_from_neighbors G m s.g (uncheck_if_needed s.tag m) with hrdef
      have hrg1 : r = rhs_from_neighbors G m (Function.update gOld G.stop vc) tag0 := by
        rw [hrdef, htagarg, hg]
      set rOld := rhs_from_neighbors G m gOld tag0 with hrOlddef
      have hrle : r ≤ rOld := by
        rw [hrg1, hrOlddef, rhs_from_eq, rhs_from_eq]
        refine costFold_mono_g _ (fun m' => ?_) _ (le_refl _)
        by_cases hm' : m' = G.stop
        · subst hm'
          rw [Function.update_same, hgtop]
          exact le_top
        · rw [Function.update_noteq hm']
      have hrge : min rOld (vc + 1) ≤ r := by
        rw [hrg1, hrOlddef, rhs_from_eq, rhs_from_eq]
        exact costFold_update_ge _ hgtop _ _
      have h_m_pos : 1 ≤ manhattan (G.pos m) (G.pos G.stop) :=
        manhattan_pos (fun hpq => hmstop (hWF.posInj _ _ hpq))
      have hpushbound : s.g m ≠ r →
          ¬ keyLt (calc_key G m s.g (Function.update s.rhs m r)) (vc, vc) := by
        intro hpush
        have hkey : calc_key G m s.g (Function.update s.rhs m r)
            = (min (s.g m) r + (manhattan (G.pos m) (G.pos G.stop) : ℕ),
               min (s.g m) r) := by
          rw [calc_key, Function.update_same]
        rw [hkey]
        rcases hCmix m hms with hcm | hcm
        · -- the stored `rhs` is still the pre-pop recomputation
          by_cases hqm : inOpen s.openList m
          · obtain ⟨em, hem, hem2⟩ := List.mem_map.1 hqm
            have hemA : em.1 = calc_key G m (Function.update gOld G.stop vc) s.rhs := by
              rw [hA em hem, hem2]
            have hembound : ¬ keyLt em.1 (vc, vc) := hbound em hem
            have hemkey : em.1
                = (min (s.g m) (s.rhs m) + (manhattan (G.pos m) (G.pos G.stop) : ℕ),
                   min (s.g m) (s.rhs m)) := by
              rw [hemA, calc_key, hg]
            by_cases hvμ : vc < min (s.g m) r
            · rw [not_keyLt]
              exact Or.inl (lt_of_lt_of_le hvμ le_self_add)
            · push_neg at hvμ
              have h2 : min (s.g m) r ≤ min (s.g m) (s.rhs m) := by
                rw [hcm]
                exact min_le_min (le_refl _) hrle
              have h1 : min (min (s.g m) (s.rhs m)) (vc + 1) ≤ min (s.g m) r := by
                rw [hcm, min_assoc]
                exact min_le_min (le_refl _) hrge
              rcases min_cases (min (s.g m) (s.rhs m)) (vc + 1) with
                ⟨hmin, -⟩ | ⟨hmin, -⟩
              · have heq : min (s.g m) r = min (s.g m) (s.rhs m) :=
                  le_antisymm h2 (by rw [← hmin]; exact h1)
                rw [heq, ← hemkey]
                exact hembound
              · exfalso
                rw [hmin] at h1
                exact absurd (lt_of_lt_of_le (cost_lt_add_one hvc)
                  (le_trans h1 hvμ)) (lt_irrefl vc)
          · -- the node was consistent: the new key is at least `(vc+1, vc+1)`
            have hcons : ¬ (s.g m ≠ s.rhs m) := fun hne => hqm ((hW m).2 hne)
            push_neg at hcons
            have hrlt : r < rOld := by
              refine lt_of_le_of_ne hrle (fun he => hpush ?_)
              rw [hcons, hcm]
              exact he.symm
            rcases min_cases rOld (vc + 1) with ⟨hmin, hle⟩ | ⟨hmin, -⟩
            · exfalso
              rw [hmin] at hrge
              exact absurd (lt_of_le_of_lt hrge hrlt) (lt_irrefl rOld)
            · have hvr : vc + 1 ≤ r := by
                rw [hmin] at hrge
                exact hrge
              have hμ : min (s.g m) r = r := by
                rw [hcons, hcm]
                exact min_eq_right hrlt.le
              rw [not_keyLt]
              refine Or.inl ?_
              rw [hμ]
              exact lt_of_lt_of_le (lt_of_lt_of_le (cost_lt_add_one hvc) hvr)
                le_self_add
        · -- the stored `rhs` is already the post-pop recomputation: re-keying
          -- reproduces the queued entry's own key
          have hin : inOpen s.openList m := by
            refine (hW m).2 ?_
            rw [hcm, ← hrg1]
            exact hpush
          obtain ⟨em, hem, hem2⟩ := List.mem_map.1 hin
          have hemA : em.1 = calc_key G m (Function.update gOld G.stop vc) s.rhs := by
            rw [hA em hem, hem2]
          have hemkey : em.1
              = (min (s.g m) r + (manhattan (G.pos m) (G.pos G.stop) : ℕ),
                 min (s.g m) r) := by
            rw [hemA, calc_key, ← hg, hcm, ← hrg1]
          rw [← hemkey]
          exact hbound em hem
      -- invariants for the recursive call
      refine ih hlls (nbr_step G s m) hg htagarg ?_ ?_ ?_ ?_
      · show ∀ v, inOpen (update_vertex G m s.rhs s.g (uncheck_if_needed s.tag m)
          s.openList).2 v
          ↔ s.g v ≠ (update_vertex G m s.rhs s.g (uncheck_if_needed s.tag m)
            s.openList).1 v
        exact update_vertex_W_full _ hW
      · show ∀ e ∈ (update_vertex G m s.rhs s.g (uncheck_if_needed s.tag m)
          s.openList).2, e.1 = calc_key G e.2 (Function.update gOld G.stop vc)
            (update_vertex G m s.rhs s.g (uncheck_if_needed s.tag m) s.openList).1
        intro e he
        have := update_vertex_A (G := G) m (uncheck_if_needed s.tag m)
          (fun e' he' => by rw [hA e' he', hg]) e he
        rw [this, hg]
      · show ∀ e ∈ (update_vertex G m s.rhs s.g (uncheck_if_needed s.tag m)
          s.openList).2, ¬ keyLt e.1 (vc, vc)
        intro e he
        rcases (update_vertex_mem hms s.rhs s.g (uncheck_if_needed s.tag m)
            s.openList e).1 he with ⟨h1, -⟩ | ⟨h1, rfl⟩
        · exact hbound e h1
        · exact hpushbound h1
      · intro m' hm'
        show (update_vertex G m s.rhs s.g (uncheck_if_needed s.tag m)
            s.openList).1 m' = rhs_from_neighbors G m' gOld tag0
          ∨ (update_vertex G m s.rhs s.g (uncheck_if_needed s.tag m)
            s.openList).1 m'
              = rhs_from_neighbors G m' (Function.update gOld G.stop vc) tag0
        by_cases hm'm : m' = m
        · subst hm'm
          rw [update_vertex_fst hms, Function.update_same]
          exact Or.inr hrg1
        · rw [update_vertex_rhs_other hm'm]
          exact hCmix m' hm'

/-! ### Field bookkeeping for `settle` and `afterPop` -/

theorem settle_topKey (G : Grid V) (nd : V) (s : EngineState V) :
    (settle G nd s).topKey = s.topKey := by
  rw [settle]
  split <;> rfl

theorem settle_tag (G : Grid V) (nd : V) (s : EngineState V) :
    (settle G nd s).tag = s.tag := by
  rw [settle]
  split <;> rfl

theorem afterPop_topKey (G : Grid V) (c : Bool) (s : EngineState V)
    (e : Key × V) (rest : OpenList V) :
    (afterPop G c s e rest).topKey = e.1 := by
  show (process_neighbors G
    (settle G e.2 { s with run := c, openList := rest, topKey := e.1 })
    (G.neighbors e.2)).topKey = e.1
  rw [process_neighbors_topKey, settle_topKey]

theorem post_not_loopCond {G : Grid V} {s : EngineState V}
    (hpost : PostInv G s) : ¬ loopCond G s := by
  rintro (hlt | hne)
  · exact hpost.2.1 hlt
  · exact hne hpost.1

theorem pre_loopCond {G : Grid V} {s : EngineState V} (hT : Tinv s)
    (hpre : PreInv G s) : loopCond G s := by
  by_cases hr : s.rhs G.stop = s.g G.stop
  · left
    rw [calc_key_stop_top hpre.1, hr, hpre.1]
    exact Or.inl (lt_top_iff_ne_top.2 hT)
  · right
    exact hr

/-! ### One loop body in the phase before the end node's pop -/

theorem afterPop_pre {G : Grid V} (hWF : GridWF G) {c : Bool}
    {s : EngineState V} {e : Key × V} {rest : OpenList V}
    (hpop : popMin s.openList = some (e, rest))
    (hW : Winv s) (hU : Uinv s) (hR : Rinv G s) (hG : Ginv G s)
    (hA : Ainv G s) (hpre : PreInv G s) (hne : e.2 ≠ G.stop) :
    Ainv G (afterPop G c s e rest) ∧ Tinv (afterPop G c s e rest)
      ∧ PreInv G (afterPop G c s e rest) := by
  obtain ⟨hgstop, hok, hC⟩ := hpre
  obtain ⟨hnin, hother⟩ := popMin_inOpen hpop hU
  have hmemE : e ∈ s.openList := popMin_mem hpop
  have hincons : s.g e.2 ≠ s.rhs e.2 :=
    (hW e.2).1 (List.mem_map.2 ⟨e, hmemE, rfl⟩)
  have hrestne : ∀ f ∈ rest, f.2 ≠ e.2 := fun f hf h2 =>
    hnin (List.mem_map.2 ⟨f, hf, h2⟩)
  have hunch := tagsOK_uncheck hok
  have hrestmem : ∀ f ∈ rest, f ∈ s.openList := fun f hf =>
    (popMin_perm hpop).mem_iff.2 (List.mem_cons_of_mem e hf)
  -- the key of the popped entry has a finite first component
  have hT4 : Tinv (afterPop G c s e rest) := by
    show (afterPop G c s e rest).topKey.1 ≠ ⊤
    rw [afterPop_topKey, hA e hmemE, calc_key]
    exact WithTop.add_ne_top.2 ⟨min_ne_top_of_ne hincons, WithTop.coe_ne_top⟩
  -- pointwise-equal qualification after the final `check` of the popped node
  have hfq : ∀ (g' : V → Cost) (v : V),
      rhs_from_neighbors G v g' (check_if_needed s.tag e.2)
        = rhs_from_neighbors G v g' s.tag := by
    intro g' v
    rw [rhs_from_eq, rhs_from_eq]
    exact costFold_congr _
      (fun m _ => check_if_needed_qualifies _ (tagsOK_tag4 hok e.2) m)
      (fun _ _ _ => rfl) ⊤
  by_cases hover : s.rhs e.2 < s.g e.2
  · -- overconsistent pop: `g[nd] := rhs[nd]`
    have hs2 : settle G e.2 { s with run := c, openList := rest, topKey := e.1 }
        = { s with
            run := c
            openList := rest
            topKey := e.1
            g := Function.update s.g e.2 (s.rhs e.2) } := by
      rw [settle, if_pos hover]
    have hA2 : ∀ f ∈ rest,
        f.1 = calc_key G f.2 (Function.update s.g e.2 (s.rhs e.2)) s.rhs := by
      intro f hf
      rw [hA f (hrestmem f hf)]
      exact calc_key_congr (Function.update_noteq (hrestne f hf) _ _).symm rfl
    have hproc := process_neighbors_rhs (G := G) hunch (G.neighbors e.2)
      { s with
        run := c
        openList := rest
        topKey := e.1
        g := Function.update s.g e.2 (s.rhs e.2) } rfl rfl
    have htag3 : (process_neighbors G
        { s with
        run := c
        openList := rest
        topKey := e.1
        g := Function.update s.g e.2 (s.rhs e.2) }
        (G.neighbors e.2)).tag = s.tag :=
      process_neighbors_tag hunch _ _ rfl
    refine ⟨?_, hT4, ?_, ?_, ?_⟩
    · -- freshness of stored keys
      show Ainv G (afterPop G c s e rest)
      intro f hf
      have hf' : f ∈ (process_neighbors G
          { s with
            run := c
            openList := rest
            topKey := e.1
            g := Function.update s.g e.2 (s.rhs e.2) }
          (G.neighbors e.2)).openList := by
        revert hf
        show f ∈ (afterPop G c s e rest).openList → _
        rw [afterPop, hs2]
        exact fun h => h
      have := process_neighbors_A (G.neighbors e.2)
        { s with
          run := c
          openList := rest
          topKey := e.1
          g := Function.update s.g e.2 (s.rhs e.2) } hA2 f hf'
      revert this
      show _ → f.1 = calc_key G f.2 (afterPop G c s e rest).g
        (afterPop G c s e rest).rhs
      rw [afterPop, hs2]
      intro h
      rw [h]
      exact calc_key_congr (by rw [process_neighbors_g]) rfl
    · -- `g[end]` still infinite
      show (afterPop G c s e rest).g G.stop = ⊤
      rw [afterPop, hs2]
      show (process_neighbors G _ _).g G.stop = ⊤
      rw [process_neighbors_g]
      show Function.update s.g e.2 (s.rhs e.2) G.stop = ⊤
      rw [Function.update_noteq (Ne.symm hne)]
      exact hgstop
    · -- state tags stay well-formed
      show TagsOK G (afterPop G c s e rest).tag
      rw [afterPop, hs2]
      show TagsOK G (check_if_needed (process_neighbors G _ _).tag e.2)
      rw [htag3]
      exact tagsOK_check hok e.2
    · -- `rhs` coherence
      intro v hv
      show (afterPop G c s e rest).rhs v
        = rhs_from_neighbors G v (afterPop G c s e rest).g
            (afterPop G c s e rest).tag
      rw [afterPop, hs2]
      show (process_neighbors G _ _).rhs v
        = rhs_from_neighbors G v (process_neighbors G _ _).g
            (check_if_needed (process_neighbors G _ _).tag e.2)
      rw [process_neighbors_g, htag3, hfq]
      by_cases hmem : v ∈ G.neighbors e.2
      · exact (hproc.2 v hmem hv)
      · rw [hproc.1 v (Or.inl hmem)]
        show s.rhs v = _
        rw [hC v hv, rhs_from_eq, rhs_from_eq]
        refine costFold_congr _ (fun _ _ => rfl) (fun m hm _ => ?_) ⊤
        have hmnd : m ≠ e.2 := by
          intro he
          rw [he] at hm
          by_cases hveq : v = e.2
          · rw [hveq] at hm
            exact hWF.irrefl e.2 hm
          · exact hmem (hWF.symm e.2 v hm)
        exact (Function.update_noteq hmnd _ _).symm
  · -- underconsistent pop: `g[nd] := ∞` and re-run `update_vertex` on it
    have hndstart : e.2 ≠ G.start := by
      intro hnd
      have h0 : s.rhs e.2 = 0 := by rw [hnd, hR]
      have hgtop : s.g e.2 = ⊤ := by
        rcases hG with hg0 | hgt
        · exact absurd (by rw [hnd, hg0, ← hnd, h0]) hincons
        · rw [hnd, hgt]
      refine hover ?_
      rw [h0, hgtop]
      exact WithTop.coe_lt_top 0
    have hs2 : settle G e.2 { s with run := c, openList := rest, topKey := e.1 }
        = { s with
            run := c
            topKey := e.1
            g := Function.update s.g e.2 ⊤
            rhs := (update_vertex G e.2 s.rhs (Function.update s.g e.2 ⊤) s.tag
              rest).1
            openList := (update_vertex G e.2 s.rhs (Function.update s.g e.2 ⊤)
              s.tag rest).2 } := by
      rw [settle, if_neg hover]
    have hA2pre : ∀ f ∈ rest,
        f.1 = calc_key G f.2 (Function.update s.g e.2 ⊤) s.rhs := by
      intro f hf
      rw [hA f (hrestmem f hf)]
      exact calc_key_congr (Function.update_noteq (hrestne f hf) _ _).symm rfl
    have hA2 := update_vertex_A (G := G) e.2 s.tag hA2pre
    have hrhs2 : (update_vertex G e.2 s.rhs (Function.update s.g e.2 ⊤) s.tag
        rest).1 = Function.update s.rhs e.2
          (rhs_from_neighbors G e.2 (Function.update s.g e.2 ⊤) s.tag) :=
      update_vertex_fst hndstart _ _ _ _
    have hproc := process_neighbors_rhs (G := G) hunch (G.neighbors e.2)
      { s with
        run := c
        topKey := e.1
        g := Function.update s.g e.2 ⊤
        rhs := (update_vertex G e.2 s.rhs (Function.update s.g e.2 ⊤) s.tag
          rest).1
        openList := (update_vertex G e.2 s.rhs (Function.update s.g e.2 ⊤)
          s.tag rest).2 } rfl rfl
    have htag3 : (process_neighbors G
        { s with
        run := c
        topKey := e.1
        g := Function.update s.g e.2 ⊤
        rhs := (update_vertex G e.2 s.rhs (Function.update s.g e.2 ⊤) s.tag
          rest).1
        openList := (update_vertex G e.2 s.rhs (Function.update s.g e.2 ⊤)
          s.tag rest).2 }
        (G.neighbors e.2)).tag = s.tag :=
      process_neighbors_tag hunch _ _ rfl
    refine ⟨?_, hT4, ?_, ?_, ?_⟩
    · show Ainv G (afterPop G c s e rest)
      intro f hf
      have hf' : f ∈ (process_neighbors G
          { s with
            run := c
            topKey := e.1
            g := Function.update s.g e.2 ⊤
            rhs := (update_vertex G e.2 s.rhs (Function.update s.g e.2 ⊤) s.tag
              rest).1
            openList := (update_vertex G e.2 s.rhs (Function.update s.g e.2 ⊤)
              s.tag rest).2 }
          (G.neighbors e.2)).openList := by
        revert hf
        show f ∈ (afterPop G c s e rest).openList → _
        rw [afterPop, hs2]
        exact fun h => h
      have := process_neighbors_A (G.neighbors e.2) _ hA2 f hf'
      revert this
      show _ → f.1 = calc_key G f.2 (afterPop G c s e rest).g
        (afterPop G c s e rest).rhs
      rw [afterPop, hs2]
      intro h
      rw [h]
      exact calc_key_congr (by rw [process_neighbors_g]) rfl
    · show (afterPop G c s e rest).g G.stop = ⊤
      rw [afterPop, hs2]
      show (process_neighbors G _ _).g G.stop = ⊤
      rw [process_neighbors_g]
      show Function.update s.g e.2 ⊤ G.stop = ⊤
      by_cases hstopnd : G.stop = e.2
      · rw [hstopnd, Function.update_same]
      · rw [Function.update_noteq hstopnd]
        exact hgstop
    · show TagsOK G (afterPop G c s e rest).tag
      rw [afterPop, hs2]
      show TagsOK G (check_if_needed (process_neighbors G _ _).tag e.2)
      rw [htag3]
      exact tagsOK_check hok e.2
    · intro v hv
      show (afterPop G c s e rest).rhs v
        = rhs_from_neighbors G v (afterPop G c s e rest).g
            (afterPop G c s e rest).tag
      rw [afterPop, hs2]
      show (process_neighbors G _ _).rhs v
        = rhs_from_neighbors G v (process_neighbors G _ _).g
            (check_if_needed (process_neighbors G _ _).tag e.2)
      rw [process_neighbors_g, htag3, hfq]
      by_cases hmem : v ∈ G.neighbors e.2
      · exact hproc.2 v hmem hv
      · rw [hproc.1 v (Or.inl hmem)]
        show (update_vertex G e.2 s.rhs (Function.update s.g e.2 ⊤) s.tag
          rest).1 v = _
        by_cases hveq : v = e.2
        · subst hveq
          rw [hrhs2, Function.update_same]
        · rw [update_vertex_rhs_other hveq]
          have hnd_nmem : e.2 ∉ G.neighbors v := fun hin =>
            hmem (hWF.symm e.2 v hin)
          rw [hC v hv, rhs_from_eq, rhs_from_eq]
          refine costFold_congr _ (fun _ _ => rfl) (fun m hm _ => ?_) ⊤
          have hmnd : m ≠ e.2 := fun he => hnd_nmem (he ▸ hm)
          exact (Function.update_noteq hmnd _ _).symm

/-! ### The loop body that pops the end node establishes the post phase -/

theorem afterPop_post {G : Grid V} (hWF : GridWF G) {c : Bool}
    {s : EngineState V} {e : Key × V} {rest : OpenList V}
    (hpop : popMin s.openList = some (e, rest))
    (hW : Winv s) (hU : Uinv s) (hA : Ainv G s)
    (hpre : PreInv G s) (hstop : e.2 = G.stop) :
    Ainv G (afterPop G c s e rest) ∧ Tinv (afterPop G c s e rest)
      ∧ PostInv G (afterPop G c s e rest) := by
  obtain ⟨ek, nd⟩ := e
  simp only at hstop
  subst hstop
  obtain ⟨hgstop, hok, hC⟩ := hpre
  obtain ⟨hnin, hother⟩ := popMin_inOpen hpop hU
  have hmemE : (ek, G.stop) ∈ s.openList := popMin_mem hpop
  have hincons : s.g G.stop ≠ s.rhs G.stop :=
    (hW G.stop).1 (List.mem_map.2 ⟨(ek, G.stop), hmemE, rfl⟩)
  have hrestne : ∀ f ∈ rest, f.2 ≠ G.stop := fun f hf h2 =>
    hnin (List.mem_map.2 ⟨f, hf, h2⟩)
  have hrestmem : ∀ f ∈ rest, f ∈ s.openList := fun f hf =>
    (popMin_perm hpop).mem_iff.2 (List.mem_cons_of_mem _ hf)
  have hunch := tagsOK_uncheck hok
  have hvc : s.rhs G.stop ≠ ⊤ := fun h => hincons (by rw [hgstop, h])
  have hkeyE : ek = (s.rhs G.stop, s.rhs G.stop) := by
    have := hA (ek, G.stop) hmemE
    simp only at this
    rw [this, calc_key_stop_top hgstop]
  have hover : s.rhs G.stop < s.g G.stop := by
    rw [hgstop]
    exact lt_top_iff_ne_top.2 hvc
  have hs2 : settle G G.stop { s with run := c, openList := rest, topKey := ek }
      = { s with
          run := c
          openList := rest
          topKey := ek
          g := Function.update s.g G.stop (s.rhs G.stop) } := by
    rw [settle, if_pos hover]
  have hl : ∀ m ∈ G.neighbors G.stop, m ≠ G.stop := fun m hm he =>
    hWF.irrefl G.stop (he ▸ hm)
  have hWL : Winv { s with
      run := c
      openList := rest
      topKey := ek
      g := Function.update s.g G.stop (s.rhs G.stop) } := by
    intro v
    show inOpen rest v ↔ Function.update s.g G.stop (s.rhs G.stop) v ≠ s.rhs v
    by_cases hv : v = G.stop
    · subst hv
      rw [Function.update_same]
      exact ⟨fun hin => absurd hin hnin, fun hne => absurd rfl hne⟩
    · rw [Function.update_noteq hv]
      exact (hother v (fun he => hv (by rw [he]))).trans (hW v)
  have hAL : ∀ f ∈ rest,
      f.1 = calc_key G f.2 (Function.update s.g G.stop (s.rhs G.stop)) s.rhs := by
    intro f hf
    rw [hA f (hrestmem f hf)]
    exact calc_key_congr (Function.update_noteq (hrestne f hf) _ _).symm rfl
  have hboundL : ∀ f ∈ rest, ¬ keyLt f.1 (s.rhs G.stop, s.rhs G.stop) := by
    intro f hf
    have := popMin_min hpop f hf
    rwa [hkeyE] at this
  have hCmixL : ∀ m, m ≠ G.start →
      s.rhs m = rhs_from_neighbors G m s.g s.tag
        ∨ s.rhs m = rhs_from_neighbors G m
            (Function.update s.g G.stop (s.rhs G.stop)) s.tag :=
    fun m hm => Or.inl (hC m hm)
  obtain ⟨hbound3, hW3, hA3, hCmix3⟩ := postFold_bound hWF hgstop hvc hunch
    (G.neighbors G.stop) hl
    { s with
      run := c
      openList := rest
      topKey := ek
      g := Function.update s.g G.stop (s.rhs G.stop) }
    rfl rfl hWL hAL hboundL hCmixL
  have hproc := process_neighbors_rhs (G := G) hunch (G.neighbors G.stop)
    { s with
      run := c
      openList := rest
      topKey := ek
      g := Function.update s.g G.stop (s.rhs G.stop) } rfl rfl
  have hs4rhs : (afterPop G c s (ek, G.stop) rest).rhs G.stop = s.rhs G.stop := by
    show (afterPop G c s (ek, G.stop) rest).rhs G.stop = s.rhs G.stop
    rw [afterPop]
    show (process_neighbors G (settle G G.stop
      { s with run := c, openList := rest, topKey := ek }) _).rhs G.stop = _
    rw [hs2]
    exact hproc.1 G.stop (Or.inl (hWF.irrefl G.stop))
  have hs4g : (afterPop G c s (ek, G.stop) rest).g G.stop = s.rhs G.stop := by
    rw [afterPop]
    show (process_neighbors G (settle G G.stop
      { s with run := c, openList := rest, topKey := ek }) _).g G.stop = _
    rw [hs2, process_neighbors_g]
    show Function.update s.g G.stop (s.rhs G.stop) G.stop = _
    rw [Function.update_same]
  have hck : calc_key G G.stop (afterPop G c s (ek, G.stop) rest).g
      (afterPop G c s (ek, G.stop) rest).rhs
        = (s.rhs G.stop, s.rhs G.stop) := by
    rw [calc_key, hs4g, hs4rhs, manhattan_self, min_self]
    simp
  have hmem4 : ∀ f, f ∈ (afterPop G c s (ek, G.stop) rest).openList →
      f ∈ (process_neighbors G
        { s with
          run := c
          openList := rest
          topKey := ek
          g := Function.update s.g G.stop (s.rhs G.stop) }
        (G.neighbors G.stop)).openList := by
    intro f hf
    revert hf
    rw [afterPop]
    show f ∈ (process_neighbors G (settle G G.stop
      { s with run := c, openList := rest, topKey := ek }) _).openList → _
    rw [hs2]
    exact fun h => h
  refine ⟨?_, ?_, ?_, ?_, ?_⟩
  · -- freshness of stored keys
    intro f hf
    have h := hA3 f (hmem4 f hf)
    rw [h]
    refine calc_key_congr ?_ ?_
    · show Function.update s.g G.stop (s.rhs G.stop) f.2
        = (afterPop G c s (ek, G.stop) rest).g f.2
      rw [afterPop]
      show _ = (process_neighbors G (settle G G.stop
        { s with run := c, openList := rest, topKey := ek }) _).g f.2
      rw [hs2, process_neighbors_g]
    · show (process_neighbors G
        { s with
          run := c
          openList := rest
          topKey := ek
          g := Function.update s.g G.stop (s.rhs G.stop) }
        (G.neighbors G.stop)).rhs f.2
          = (afterPop G c s (ek, G.stop) rest).rhs f.2
      rw [afterPop]
      show _ = (process_neighbors G (settle G G.stop
        { s with run := c, openList := rest, topKey := ek }) _).rhs f.2
      rw [hs2]
  · -- finite `topKey`
    show (afterPop G c s (ek, G.stop) rest).topKey.1 ≠ ⊤
    rw [afterPop_topKey]
    show ek.1 ≠ ⊤
    rw [hkeyE]
    exact hvc
  · -- the end node is consistent
    exact hs4rhs.trans hs4g.symm
  · -- `topKey` dominates `calc_key(end)`
    rw [afterPop_topKey, hck]
    show ¬ keyLt ek _
    rw [hkeyE]
    exact keyLt_irrefl _
  · -- every queued entry dominates `calc_key(end)`
    intro f hf
    rw [hck]
    exact hbound3 f (hmem4 f hf)

/-! ### The C1 main induction -/

theorem startState_LoopInv {G : Grid V} (hWF : GridWF G) :
    LoopInv G (startState G) := by
  obtain ⟨hW, hU, hR, hG⟩ := startState_inv G
  refine ⟨hW, hU, hR, hG, ?_, ?_, Or.inl ⟨rfl, ?_, ?_⟩⟩
  · intro f hf
    have hf' : f ∈ [(calc_key G G.start (fun _ => (⊤ : Cost))
        (Function.update (fun _ => (⊤ : Cost)) G.start 0), G.start)] := hf
    rw [List.mem_singleton] at hf'
    subst hf'
    rfl
  · show (calc_key G G.start (fun _ => ⊤)
      (Function.update (fun _ => (⊤ : Cost)) G.start 0)).1 ≠ ⊤
    rw [calc_key, Function.update_same, min_eq_right le_top, zero_add]
    exact WithTop.coe_ne_top
  · exact ⟨hWF.tagStart, hWF.tagStop, hWF.tagOther⟩
  · intro v hv
    show Function.update (fun _ => (⊤ : Cost)) G.start 0 v
      = rhs_from_neighbors G v (fun _ => ⊤) G.initTag
    rw [Function.update_noteq hv, rhs_from_eq]
    rcases costFold_cases (qualifies G.initTag G.beenChecked) (fun _ => ⊤)
      (G.neighbors v) ⊤ with h | ⟨m, -, -, h⟩
    · exact h.symm
    · rw [h, top_add]

theorem lpa_step_preserves_LoopInv {G : Grid V} (hWF : GridWF G) {c : Bool}
    {f : ℕ} {s s' : EngineState V} (hcond : loopCond G s)
    (hinv : LoopInv G s) (hstep : lpa_step G c f s = .ok s') :
    LoopInv G s' := by
  obtain ⟨hW, hU, hR, hG, hA, hT, hphase⟩ := hinv
  obtain ⟨e, rest, hpop, hcases⟩ := lpa_step_ok_elim hstep
  rcases hphase with hpre | hpost
  · rcases hcases with ⟨hne, rfl⟩ | ⟨hstop, st', -, rfl⟩
    · obtain ⟨hW', hU', hR', hG'⟩ := afterPop_inv hpop hW hU hR hG
      obtain ⟨hA', hT', hpre'⟩ := afterPop_pre hWF hpop hW hU hR hG hA hpre hne
      exact ⟨hW', hU', hR', hG', hA', hT', Or.inl hpre'⟩
    · obtain ⟨hW', hU', hR', hG'⟩ := afterPop_inv hpop hW hU hR hG
      obtain ⟨hA', hT', hpost'⟩ := afterPop_post hWF hpop hW hU hA hpre hstop
      exact ⟨hW', hU', hR', hG', hA', hT', Or.inr hpost'⟩
  · exact absurd hcond (post_not_loopCond hpost)

theorem lpa_loop_converged {G : Grid V} (hWF : GridWF G) (cancel : ℕ → Bool) :
    ∀ (fuel i : ℕ) (s s' : EngineState V), LoopInv G s →
      lpa_loop G cancel fuel i s = .converged s' →
      LoopInv G s' ∧ PostInv G s' := by
  intro fuel
  induction fuel with
  | zero => intro i s s' _ h; cases h
  | succ f ih =>
    intro i s s' hinv hrun
    rw [lpa_loop] at hrun
    by_cases hcond : loopCond G s
    · rw [if_pos hcond] at hrun
      by_cases hb : s.run = true
      · rw [if_pos hb] at hrun
        cases hstep : lpa_step G (cancel i) f s with
        | ok s2 =>
          rw [hstep] at hrun
          exact ih (i + 1) s2 s'
            (lpa_step_preserves_LoopInv hWF hcond hinv hstep) hrun
        | emptyOpen s2 => rw [hstep] at hrun; cases hrun
        | pathFail s2 => rw [hstep] at hrun; cases hrun
        | pathFuel => rw [hstep] at hrun; cases hrun
      · rw [if_neg hb] at hrun
        cases hrun
    · rw [if_neg hcond] at hrun
      injection hrun with h1
      subst h1
      rcases hinv.2.2.2.2.2.2 with hpre | hpost
      · exact absurd (pre_loopCond hinv.2.2.2.2.2.1 hpre) hcond
      · exact ⟨hinv, hpost⟩

/-- C1: whenever a run of `lpa_star` exits because the while-condition proper
became false (outcome `converged`, as opposed to cancellation or the
empty-open-list break), the end node is locally consistent, every stored
open-list key equals the key freshly recomputed from the final `g` and `rhs`,
and no queued entry's fresh key is smaller than `calc_key(end)`. -/
theorem lpa_star_converged_sound {G : Grid V} (hWF : GridWF G)
    (cancel : ℕ → Bool) (fuel : ℕ) (s' : EngineState V)
    (h : lpa_star G cancel fuel = RunOutcome.converged s') :
    s'.rhs G.stop = s'.g G.stop
      ∧ (∀ e ∈ s'.openList, e.1 = calc_key G e.2 s'.g s'.rhs)
      ∧ ∀ e ∈ s'.openList,
          ¬ keyLt (calc_key G e.2 s'.g s'.rhs)
            (calc_key G G.stop s'.g s'.rhs) := by
  obtain ⟨hinv, hpost⟩ := lpa_loop_converged hWF cancel fuel 0 (startState G) s'
    (startState_LoopInv hWF) h
  refine ⟨hpost.1, hinv.2.2.2.2.1, ?_⟩
  intro e he
  rw [← hinv.2.2.2.2.1 e he]
  exact hpost.2.2 e he

/-- A well-formed two-cell grid: start `false` at `(0, 0)` and end `true` at
`(0, 1)`, adjacent to each other. -/
def pairGrid : Grid Bool where
  start := false
  stop := true
  neighbors := fun v => [!v]
  pos := fun v => if v then (0, 1) else (0, 0)
  beenChecked := fun _ => false
  initTag := fun v => if v then .endTag else .startTag

/-- The final state of the convergent run of `lpa_star` on `pairGrid`. -/
def pairGridFinal : EngineState Bool :=
  match lpa_star pairGrid (fun _ => true) 5 with
  | .converged s => s
  | _ => startState pairGrid

/-- C1, witness: a concrete convergent run on the two-cell grid. -/
theorem lpa_star_converged_sound_witness :
    GridWF pairGrid
      ∧ lpa_star pairGrid (fun _ => true) 5 = RunOutcome.converged pairGridFinal
      ∧ (pairGridFinal.rhs pairGrid.stop = pairGridFinal.g pairGrid.stop
          ∧ (∀ e ∈ pairGridFinal.openList,
              e.1 = calc_key pairGrid e.2 pairGridFinal.g pairGridFinal.rhs)
          ∧ ∀ e ∈ pairGridFinal.openList,
              ¬ keyLt (calc_key pairGrid e.2 pairGridFinal.g pairGridFinal.rhs)
                (calc_key pairGrid pairGrid.stop pairGridFinal.g
                  pairGridFinal.rhs)) := by
  have hWFp : GridWF pairGrid := by
    constructor <;> decide
  have hrun : lpa_star pairGrid (fun _ => true) 5
      = RunOutcome.converged pairGridFinal := rfl
  exact ⟨hWFp, hrun,
    lpa_star_converged_sound hWFp (fun _ => true) 5 pairGridFinal hrun⟩

end LPA
